import Mathlib

/-!
# WAVE container codec and per-sample transforms

A shallow embedding of `waveform.hpp`: the 44-byte header record, the
`Waveform` container with its stream reading and writing functions, and the
sample filters of `demo::filters`.

Conventions of the embedding.
* A byte is a `Fin 256`; a file is a `List Byte`.
* `short` and `int` values are `Int`s; the predicates `isShort` and `isInt`
  give the value ranges of the two C++ types. Storing a value to memory and
  loading it back goes through `objBytes` / `signedValue` (two's complement,
  little-endian, as on the x64 targets the source names).
* `std::ifstream` is the record `IFStream` (content, read position, failbit);
  a read that cannot be satisfied keeps the bytes it got, sets the failbit and
  leaves the rest of the destination buffer as it was, and every later read on
  a failed stream does nothing. The source never enables stream exceptions and
  never tests the stream state.
* Variables the source declares without an initialiser hold indeterminate
  values; these are parameters of the embedding (`Locals`, and the `_header`
  of a `Waveform` under construction).
* Behaviour the C++ language leaves undefined (division by zero, access past
  the end of an object) is the result `none`.
* A `float` is the rational number it holds. Every `float` operation of the
  source is the exact operation followed by `toFloat`, the rounding of IEEE
  binary32 arithmetic (24 significant bits, ties to even, subnormal numbers
  at the bottom of the range).
-/

namespace wav

/-- One byte of a file or of an object representation. -/
abbrev Byte := Fin 256

/-- Value range of the C++ type `short` (16 bit, two's complement). -/
def isShort (x : Int) : Prop := -32768 ≤ x ∧ x ≤ 32767

instance (x : Int) : Decidable (isShort x) := by
  unfold isShort
  infer_instance

/-- Value range of the C++ type `int` (32 bit, two's complement). -/
def isInt (x : Int) : Prop := -2147483648 ≤ x ∧ x ≤ 2147483647

instance (x : Int) : Decidable (isInt x) := by
  unfold isInt
  infer_instance

/-- Object representation of an integer: its `n` low bytes in two's
complement, least significant byte first. -/
def objBytes : Nat → Int → List Byte
  | 0, _ => []
  | n + 1, v => ⟨(v % 256).toNat, by omega⟩ :: objBytes n (v / 256)

/-- Unsigned value of a little-endian byte sequence. -/
def unsignedValue : List Byte → Nat
  | [] => 0
  | b :: bs => b.val + 256 * unsignedValue bs

/-- Value of a little-endian byte sequence read as a two's-complement signed
integer of that many bytes. -/
def signedValue (bs : List Byte) : Int :=
  if unsignedValue bs < 2 ^ (8 * bs.length - 1) then (unsignedValue bs : Int)
  else (unsignedValue bs : Int) - 2 ^ (8 * bs.length)

/-- Conversion of an integer value to `short` (modulo 2^16). -/
def toShort (x : Int) : Int := signedValue (objBytes 2 x)

/-- Conversion of an integer value to `int` (modulo 2^32). -/
def toInt (x : Int) : Int := signedValue (objBytes 4 x)

/-- Conversion of an integer value to `size_t` (modulo 2^64). -/
def toSizeT (x : Int) : Nat := (x % 18446744073709551616).toNat

/-- The type `std::array<char, 4>` (and `char[4]`), by bit pattern. -/
structure CharArray4 where
  c0 : Byte
  c1 : Byte
  c2 : Byte
  c3 : Byte
  deriving DecidableEq, Repr

/-- Object representation of a four-character array. -/
def CharArray4.bytes (a : CharArray4) : List Byte := [a.c0, a.c1, a.c2, a.c3]

/-- Four-character array with the given object representation. -/
def CharArray4.ofBytes (l : List Byte) : CharArray4 :=
  ⟨l.getD 0 0, l.getD 1 0, l.getD 2 0, l.getD 3 0⟩

/-- The record `WAVHeader` (waveform.hpp lines 130-149), fields in
declaration order. -/
structure WAVHeader where
  chunk_id : CharArray4
  chunk_size : Int
  format : CharArray4
  subchunk1_id : CharArray4
  subchunk1_size : Int
  audio_format : Int
  num_channels : Int
  sample_rate : Int
  byte_rate : Int
  block_align : Int
  bits_per_sample : Int
  subchunk2_id : CharArray4
  subchunk2_size : Int
  deriving DecidableEq, Repr

/-- Every integer field of the header holds a value of its C++ type
(`int` or `short`). -/
def WAVHeader.WellTyped (h : WAVHeader) : Prop :=
  isInt h.chunk_size ∧ isInt h.subchunk1_size ∧ isShort h.audio_format ∧
  isShort h.num_channels ∧ isInt h.sample_rate ∧ isInt h.byte_rate ∧
  isShort h.block_align ∧ isShort h.bits_per_sample ∧ isInt h.subchunk2_size

instance (h : WAVHeader) : Decidable h.WellTyped := by
  unfold WAVHeader.WellTyped
  infer_instance

/-- The class `Waveform`: one header and the sample vector. -/
structure Waveform where
  _header : WAVHeader
  _data : List Int
  deriving DecidableEq, Repr

/-- The constants `wav::FAILURE` and `wav::SUCCESS`. -/
def FAILURE : Int := 1

def SUCCESS : Int := 0

/-! ## Streams -/

/-- An input file stream: the bytes of the file, the read position and the
failbit. -/
structure IFStream where
  content : List Byte
  pos : Nat
  failbit : Bool
  deriving DecidableEq, Repr

/-- The call `file.read(buf, count)`: on a failed stream nothing happens;
otherwise the available bytes, at most `count`, overwrite the front of the
buffer, and the failbit is set when fewer than `count` were available. -/
def IFStream.read (file : IFStream) (buf : List Byte) (count : Nat) :
    IFStream × List Byte :=
  if file.failbit then (file, buf)
  else
    let got := (file.content.drop file.pos).take count
    ({ file with pos := file.pos + got.length, failbit := decide (got.length < count) },
      got ++ buf.drop got.length)

/-- The call `file.seekg(p)` from the beginning: no effect on a failed stream. -/
def IFStream.seekg (file : IFStream) (p : Nat) : IFStream :=
  if file.failbit then file else { file with pos := p }

/-- A stream just opened on a file with the given bytes. -/
def IFStream.ofFile (content : List Byte) : IFStream :=
  { content := content, pos := 0, failbit := false }

/-- Reading `count` bytes into a `char[4]`. -/
def readChars (file : IFStream) (old : CharArray4) (count : Nat) : IFStream × CharArray4 :=
  ((file.read old.bytes count).1, CharArray4.ofBytes (file.read old.bytes count).2)

/-- Reading `count` bytes into an `int` object holding `old`. -/
def readInt (file : IFStream) (old : Int) (count : Nat) : IFStream × Int :=
  ((file.read (objBytes 4 old) count).1, signedValue (file.read (objBytes 4 old) count).2)

/-- Reading `count` bytes (at most two) into a `short` object holding `old`. -/
def readShort (file : IFStream) (old : Int) (count : Nat) : IFStream × Int :=
  ((file.read (objBytes 2 old) count).1, signedValue (file.read (objBytes 2 old) count).2)

/-- An output file stream: the bytes of the file so far and the write position. -/
structure OFStream where
  content : List Byte
  pos : Nat
  deriving DecidableEq, Repr

/-- The call `file.write(bytes, n)`: the bytes go to the write position,
replacing what was there and extending the file as needed (a gap left by a
seek past the end reads as zero bytes). -/
def OFStream.write (file : OFStream) (bytes : List Byte) : OFStream :=
  { content := file.content.take file.pos ++ List.replicate (file.pos - file.content.length) 0
      ++ bytes ++ file.content.drop (file.pos + bytes.length),
    pos := file.pos + bytes.length }

/-- The call `file.seekp(p, std::ios_base::beg)`. -/
def OFStream.seekp (file : OFStream) (p : Nat) : OFStream :=
  { file with pos := p }

/-- A stream just opened for writing: the file is empty. -/
def OFStream.create : OFStream := { content := [], pos := 0 }

/-! ## Reading: `init_header`, `init_data`, the constructor and `load` -/

/-- Indeterminate initial contents of the local variables that `init_header`
and `init_data` declare without an initialiser: the four `char[4]` buffers
and `short sample`. -/
structure Locals where
  chunk_id : CharArray4
  format : CharArray4
  subchunk1_id : CharArray4
  subchunk2_id : CharArray4
  sample : Int
  deriving DecidableEq, Repr

/-- The function `Waveform::init_header` (lines 323-363): thirteen unchecked
reads in field order, then the four tags are copied into the header. The
result is the stream, the new header and the returned `bytes_read`, which the
source sets to 12 + 24 + 8 whatever the reads did. -/
def init_header (file : IFStream) (_header : WAVHeader) (locals : Locals) :
    IFStream × WAVHeader × Nat :=
  let f0 := file.seekg 0
  let r1 := readChars f0 locals.chunk_id 4
  let r2 := readInt r1.1 _header.chunk_size 4
  let r3 := readChars r2.1 locals.format 4
  let r4 := readChars r3.1 locals.subchunk1_id 4
  let r5 := readInt r4.1 _header.subchunk1_size 4
  let r6 := readShort r5.1 _header.audio_format 2
  let r7 := readShort r6.1 _header.num_channels 2
  let r8 := readInt r7.1 _header.sample_rate 4
  let r9 := readInt r8.1 _header.byte_rate 4
  let r10 := readShort r9.1 _header.block_align 2
  let r11 := readShort r10.1 _header.bits_per_sample 2
  let r12 := readChars r11.1 locals.subchunk2_id 4
  let r13 := readInt r12.1 _header.subchunk2_size 4
  (r13.1,
    { chunk_id := r1.2, chunk_size := r2.2, format := r3.2, subchunk1_id := r4.2,
      subchunk1_size := r5.2, audio_format := r6.2, num_channels := r7.2,
      sample_rate := r8.2, byte_rate := r9.2, block_align := r10.2,
      bits_per_sample := r11.2, subchunk2_id := r12.2, subchunk2_size := r13.2 },
    12 + 24 + 8)

/-- The loop of `Waveform::init_data` (lines 376-382). `bound` is the value of
`_header.subchunk2_size / bytes_per_sample * 2` (a `size_t`), `count` the value
of `_header.bits_per_sample / 8`. The counter `i` is an `int`: it is converted
to `size_t` for the comparison and for the addition, and the sum is converted
back to `int`. Each round reads `count` bytes into `sample` without looking at
the stream state and appends `sample` to the vector. The first argument is
the fuel of the recursion. -/
def init_data_loop (bound bytes_per_sample count : Nat) :
    Nat → Int → IFStream → Int → Nat → List Int → Option (IFStream × Nat × List Int)
  | 0, _, _, _, _, _ => none
  | fuel + 1, i, file, sample, bytes_read, _data =>
    if toSizeT i < bound then
      init_data_loop bound bytes_per_sample count fuel
        (toInt (((toSizeT i + bytes_per_sample) % 18446744073709551616 : Nat) : Int))
        (readShort file sample count).1 (readShort file sample count).2
        ((bytes_read + count) % 18446744073709551616)
        (_data ++ [(readShort file sample count).2])
    else some (file, bytes_read, _data)

/-- The function `Waveform::init_data` (lines 365-385). The embedding covers
`_header.bits_per_sample / 8` equal to 1 or 2; for 0 the loop bound divides by
zero, above 2 the read overruns `sample`, and negative counts are outside the
embedding: all of these are `none`. The counter takes at most 2^32 values, so
the fuel 2^32 is never the reason for `none`. -/
def init_data (file : IFStream) (w : Waveform) (locals : Locals) :
    Option (IFStream × Waveform × Nat) :=
  if 1 ≤ w._header.bits_per_sample.tdiv 8 ∧ w._header.bits_per_sample.tdiv 8 ≤ 2 then
    (init_data_loop
      ((toSizeT w._header.subchunk2_size / toSizeT (w._header.bits_per_sample.tdiv 8) * 2)
        % 18446744073709551616)
      (toSizeT (w._header.bits_per_sample.tdiv 8))
      (w._header.bits_per_sample.tdiv 8).toNat
      4294967296 0 (file.seekg 44) locals.sample 0 w._data).map
      fun r => (r.1, { w with _data := r.2.2 }, r.2.1)
  else none

/-- The constructor `Waveform(const std::string&)` (lines 164-174) on a file
that opens and holds `content`: `init_header` then `init_data` on an object
whose header is not initialised and whose vector is empty. Neither call can
throw, and the values they return are discarded. -/
def Waveform.construct (uninit : WAVHeader) (locals : Locals) (content : List Byte) :
    Option Waveform :=
  (init_data (init_header (IFStream.ofFile content) uninit locals).1
    { _header := (init_header (IFStream.ofFile content) uninit locals).2.1, _data := [] }
    locals).map fun d => d.2.1

/-- The function `Waveform::load` (lines 226-243) on a file that opens and
holds `content`. -/
def Waveform.load (w : Waveform) (locals : Locals) (content : List Byte) :
    Option (Waveform × Int) :=
  (init_data (init_header (IFStream.ofFile content) w._header locals).1
    { _header := (init_header (IFStream.ofFile content) w._header locals).2.1, _data := [] }
    locals).map fun d => (d.2.1, SUCCESS)

/-! ## Writing: `write_header`, `write_data` and `save` -/

/-- The function `Waveform::write_header` (lines 387-412): thirteen writes of
the header fields as they stand. The stream never throws, so the `catch`
branch is dead and the result is `SUCCESS`. -/
def write_header (file : OFStream) (_header : WAVHeader) : OFStream × Int :=
  let f1 := file.write _header.chunk_id.bytes
  let f2 := f1.write (objBytes 4 _header.chunk_size)
  let f3 := f2.write _header.format.bytes
  let f4 := f3.write _header.subchunk1_id.bytes
  let f5 := f4.write (objBytes 4 _header.subchunk1_size)
  let f6 := f5.write (objBytes 2 _header.audio_format)
  let f7 := f6.write (objBytes 2 _header.num_channels)
  let f8 := f7.write (objBytes 4 _header.sample_rate)
  let f9 := f8.write (objBytes 4 _header.byte_rate)
  let f10 := f9.write (objBytes 2 _header.block_align)
  let f11 := f10.write (objBytes 2 _header.bits_per_sample)
  let f12 := f11.write _header.subchunk2_id.bytes
  let f13 := f12.write (objBytes 4 _header.subchunk2_size)
  (f13, SUCCESS)

/-- The loop of `Waveform::write_data` (lines 422-428): the first
`bytes_per_sample` bytes of every element, in order. More than two bytes
would be read past the end of the `short`; a count that is not positive
writes nothing. The local `bytes_written` is never used and is left out. -/
def write_data_loop (bytes_per_sample : Int) : OFStream → List Int → Option OFStream
  | file, [] => some file
  | file, elem :: rest =>
    if bytes_per_sample ≤ 2 then
      write_data_loop bytes_per_sample
        (file.write ((objBytes 2 elem).take bytes_per_sample.toNat)) rest
    else none

/-- The function `Waveform::write_data` (lines 414-433). -/
def write_data (file : OFStream) (w : Waveform) : Option (OFStream × Int) :=
  (write_data_loop (w._header.bits_per_sample.tdiv 8) (file.seekp 44) w._data).map
    fun f => (f, SUCCESS)

/-- The function `Waveform::save` (lines 196-224) on a destination that
opens: the bytes of the file written and the returned status. -/
def Waveform.save (w : Waveform) : Option (List Byte × Int) :=
  if (write_header OFStream.create w._header).2 ≠ 0 then
    some ((write_header OFStream.create w._header).1.content, FAILURE)
  else
    (write_data (write_header OFStream.create w._header).1 w).map fun d =>
      if d.2 ≠ 0 then (d.1.content, FAILURE) else (d.1.content, SUCCESS)

/-- The function template `Waveform::filter` (lines 189-194), as the loop over
the elements of `_data` from the front: the functor is called on the current
element and its result is stored in that slot. A functor is a C++ object and
may carry state, so `action` takes and returns the functor state. The functors
of the repository return `SampleType`, here `short`, so the store converts
nothing. -/
def filter_loop {σ : Type} (action : σ → Int → Int × σ) : σ → List Int → List Int × σ
  | st, [] => ([], st)
  | st, sample :: rest =>
    ((action st sample).1 :: (filter_loop action (action st sample).2 rest).1,
      (filter_loop action (action st sample).2 rest).2)

/-- The call `w.filter(action)`: the waveform afterwards and the final state
of the functor. -/
def Waveform.filter {σ : Type} (w : Waveform) (action : σ → Int → Int × σ) (st : σ) :
    Waveform × σ :=
  ({ w with _data := (filter_loop action st w._data).1 }, (filter_loop action st w._data).2)

/-! ## Byte sequences of headers and samples

Closed forms used to state what the stream functions produce. -/

/-- The 44 bytes of a header: the object representations of the thirteen
fields, in declaration order, with nothing between them. -/
def WAVHeader.bytes (h : WAVHeader) : List Byte :=
  h.chunk_id.bytes ++ objBytes 4 h.chunk_size ++ h.format.bytes ++ h.subchunk1_id.bytes ++
  objBytes 4 h.subchunk1_size ++ objBytes 2 h.audio_format ++ objBytes 2 h.num_channels ++
  objBytes 4 h.sample_rate ++ objBytes 4 h.byte_rate ++ objBytes 2 h.block_align ++
  objBytes 2 h.bits_per_sample ++ h.subchunk2_id.bytes ++ objBytes 4 h.subchunk2_size

/-- The header whose fields are read off the first 44 bytes of a sequence. -/
def headerOfBytes (b : List Byte) : WAVHeader :=
  { chunk_id := CharArray4.ofBytes ((b.drop 0).take 4),
    chunk_size := signedValue ((b.drop 4).take 4),
    format := CharArray4.ofBytes ((b.drop 8).take 4),
    subchunk1_id := CharArray4.ofBytes ((b.drop 12).take 4),
    subchunk1_size := signedValue ((b.drop 16).take 4),
    audio_format := signedValue ((b.drop 20).take 2),
    num_channels := signedValue ((b.drop 22).take 2),
    sample_rate := signedValue ((b.drop 24).take 4),
    byte_rate := signedValue ((b.drop 28).take 4),
    block_align := signedValue ((b.drop 32).take 2),
    bits_per_sample := signedValue ((b.drop 34).take 2),
    subchunk2_id := CharArray4.ofBytes ((b.drop 36).take 4),
    subchunk2_size := signedValue ((b.drop 40).take 4) }

/-- The samples held by a byte sequence, two bytes each, low byte first. -/
def samplesOfBytes : List Byte → List Int
  | a :: b :: rest => signedValue [a, b] :: samplesOfBytes rest
  | _ => []

/-- The bytes of a sample sequence, two bytes each, low byte first. -/
def bytesOfSamples : List Int → List Byte
  | [] => []
  | x :: rest => objBytes 2 x ++ bytesOfSamples rest

/-! ## Example values -/

/-- The constant `mono_16bit` of the sine generator (generator.cpp lines 5-19):
a 16-bit mono PCM header at 44100 Hz with an empty data chunk. -/
def mono_16bit : WAVHeader :=
  { chunk_id := ⟨82, 73, 70, 70⟩, chunk_size := 0, format := ⟨87, 65, 86, 69⟩,
    subchunk1_id := ⟨102, 109, 116, 32⟩, subchunk1_size := 16, audio_format := 1,
    num_channels := 1, sample_rate := 44100, byte_rate := 88200, block_align := 2,
    bits_per_sample := 16, subchunk2_id := ⟨100, 97, 116, 97⟩, subchunk2_size := 0 }

/-- The header `mono_16bit` announcing four bytes of data (two samples). -/
def mono_16bit_two : WAVHeader := { mono_16bit with subchunk2_size := 4 }

/-- Local variables that happen to hold zeros. -/
def zeroLocals : Locals := ⟨⟨0, 0, 0, 0⟩, ⟨0, 0, 0, 0⟩, ⟨0, 0, 0, 0⟩, ⟨0, 0, 0, 0⟩, 0⟩

end wav

/-! ## The filters of `demo::filters` -/

namespace demo.filters

/-- The functor `Clip<short>` (lines 42-54): `sample` is promoted to `int`,
so `std::abs` is exact; the selected `int` is converted to `short` on return. -/
def Clip (threshold : Int) (sample : Int) : Int :=
  wav.toShort (if |sample| > threshold then (if sample < 0 then -1 else 1) * threshold else sample)

/-- The integer nearest to a rational number, the even one of the two when
the number lies half way between them. -/
def roundHalfEven (t : ℚ) : Int :=
  if Int.fract t < 1 / 2 then ⌊t⌋
  else if 1 / 2 < Int.fract t then ⌊t⌋ + 1
  else if ⌊t⌋ % 2 = 0 then ⌊t⌋ else ⌊t⌋ + 1

/-- The binary exponent that governs the spacing of the `float` values around
`x`: the exponent of `|x|`, and -126 throughout the subnormal range. -/
def floatExponent (x : ℚ) : Int := max (Int.log 2 |x|) (-126)

/-- The `float` (IEEE binary32) nearest to a rational number, ties to even:
the multiple of `2 ^ (floatExponent x - 23)` nearest to `x`. A result of
magnitude `2 ^ 128` or more stands for the infinity of its sign; the source
uses such a result only in a comparison with a sample, where the two behave
alike. -/
def toFloat (x : ℚ) : ℚ :=
  (roundHalfEven (x / 2 ^ (floatExponent x - 23)) : ℚ) * 2 ^ (floatExponent x - 23)

/-- Conversion of a real value to an integer type: the fractional part is
discarded (truncation toward zero). -/
def truncate (q : ℚ) : Int := if 0 ≤ q then ⌊q⌋ else ⌈q⌉

/-- The functor `Gain<short>` (lines 56-73); `factor` is the value of the
`float` member. The quotient `max() / factor` and the product
`sample * factor` are `float` operations, each rounded by `toFloat`; the
sample and its absolute value convert to `float` without rounding. The
quotient with `factor` zero, the positive zero, is positive infinity, which
is below no sample. The product converted on return lies within the range of
`short` whenever that line is reached with a sample that is a `short`. -/
def Gain (factor : ℚ) (sample : Int) : Int :=
  if |sample| ≥ 32767 - 1 ∨
      (factor ≠ 0 ∧ toFloat ((32767 : ℚ) / factor) < (|sample| : Int)) then sample
  else truncate (toFloat ((sample : ℚ) * factor))

/-- The functor `Pulsify<float, short>` (lines 75-93). The constructor keeps
the absolute value of its argument as the threshold. The one inexact step is
the `float` division `(float)sample / (float)max()`; `fl` is its rounding, and
exact arithmetic is `fl = id`. The comparison and the two rails are exact. -/
def Pulsify (fl : ℚ → ℚ) (value : ℚ) (sample : Int) : Int :=
  if |fl ((sample : ℚ) / 32767)| < |value| then sample
  else if sample < 0 then -32768 else 32767

end demo.filters

/-! ## Amplitude queries, `normalize`, `num_samples` and convolution -/

namespace wav
open demo.filters

/-- The function `Waveform::num_samples` (lines 186-187): the `int` quotient
`_header.subchunk2_size / _header.bits_per_sample`, rounded toward zero. A
zero divisor and the one quotient that does not fit an `int` are undefined. -/
def Waveform.num_samples (w : Waveform) : Option Int :=
  if w._header.bits_per_sample = 0 ∨
      (w._header.subchunk2_size = -2147483648 ∧ w._header.bits_per_sample = -1) then none
  else some (w._header.subchunk2_size.tdiv w._header.bits_per_sample)

/-- The loop of `Waveform::maximum_intensity` (lines 306-308): a sample
replaces `max` when its absolute value is strictly larger; both are promoted
to `int`, so the absolute values are exact. -/
def maximum_intensity_loop : Int → List Int → Int
  | max, [] => max
  | max, sample :: rest =>
    maximum_intensity_loop (if |sample| > |max| then sample else max) rest

/-- The function `Waveform::maximum_intensity` (lines 303-311): `max` starts
as `_data[0]`, read without a test for emptiness, and the loop then visits
every sample, the first included. On an empty vector the read is out of
bounds. -/
def Waveform.maximum_intensity (w : Waveform) : Option Int :=
  match w._data with
  | [] => none
  | first :: rest => some (maximum_intensity_loop first (first :: rest))

/-- The function `Waveform::maximum_amplitude` (line 312): the peak converts
to `float` without rounding and the `float` quotient by `INT16_MAX - 1` is
rounded. -/
def Waveform.maximum_amplitude (w : Waveform) : Option ℚ :=
  w.maximum_intensity.map fun (m : Int) => toFloat ((m : ℚ) / (32767 - 1))

/-- The loop of the private overload `normalize(float factor)` (lines
320-321): every sample is replaced by `Gain<float, short>(factor)` of it. -/
def normalize_loop (factor : ℚ) : List Int → List Int
  | [] => []
  | sample :: rest => Gain factor sample :: normalize_loop factor rest

/-- The private overload `Waveform::normalize(float factor)` (lines 315-322). -/
def Waveform.normalize_factor (w : Waveform) (factor : ℚ) : Waveform :=
  { w with _data := normalize_loop factor w._data }

/-- The function `Waveform::normalize()` (lines 298-301): the factor is the
rounded `float` quotient `1 / maximum_amplitude()`. Nothing tests the
amplitude before the division: with amplitude zero this divides by zero, and
under IEEE arithmetic the factor is then infinite and every sample, all of
them zero, is converted to `short` from a value that is not a number. Both
are undefined, as is the out-of-bounds read on an empty vector. -/
def Waveform.normalize (w : Waveform) : Option Waveform :=
  match w.maximum_amplitude with
  | none => none
  | some a => if a = 0 then none else some (w.normalize_factor (toFloat (1 / a)))

/-- Modelled from the spec: one accumulated output value of the convolution
that `Waveform::convolute` computes; demo.cpp line 25 calls that function and
waveform.hpp does not define it. Section 4.4: output position `i` holds the
sum of `kernel[k] × samples[i - k]` over all `k` for which `i - k` is a valid
input index, terms out of range counting as zero. -/
def convolute_at (samples : List Int) (kernel : List ℚ) (i : Nat) : ℚ :=
  ((List.range kernel.length).map fun k =>
    if k ≤ i ∧ i - k < samples.length then kernel.getD k 0 * (samples.getD (i - k) 0 : ℚ)
    else 0).sum

/-- Modelled from the spec: the sample sequence that `Waveform::convolute`
produces, a function absent from waveform.hpp. Section 4.4 with the boundary
terms included (zero padding at both ends): one output value for each of the
`len(samples) + len(kernel) - 1` positions, each accumulated sum converted to
the integer sample domain by truncation toward zero, nothing clamped. -/
def convolute (samples : List Int) (kernel : List ℚ) : List Int :=
  (List.range (samples.length + kernel.length - 1)).map fun i =>
    truncate (convolute_at samples kernel i)

/-- Modelled from the spec: the call `w.convolute(kernel)` (section 4.2,
`convolve(kernel) -> self`), absent from waveform.hpp: the sample sequence is
replaced by its convolution with the kernel. -/
def Waveform.convolute (w : Waveform) (kernel : List ℚ) : Waveform :=
  { w with _data := wav.convolute w._data kernel }

/-- The kernel that demo.cpp passes to `convolute` (line 25). -/
def demo_kernel : List ℚ :=
  [1 / 10, 0, -(2 / 10), 0, 3 / 10, 0, -(1 / 10), 0, 1 / 100, 0, -(1 / 10), 0, 1111 / 10000]

end wav

/-! ## Lemmas on the codec -/

namespace wav

theorem objBytes_length (n : Nat) (v : Int) : (objBytes n v).length = n := by
  induction n generalizing v with
  | zero => rfl
  | succ n ih => simp [objBytes, ih]

theorem IFStream.read_ok (c : List Byte) (p n : Nat) (buf : List Byte)
    (h : p + n ≤ c.length) (hb : buf.length = n) :
    IFStream.read ⟨c, p, false⟩ buf n = (⟨c, p + n, false⟩, (c.drop p).take n) := by
  have hl : ((c.drop p).take n).length = n := by
    rw [List.length_take, List.length_drop]; omega
  have hd : buf.drop n = [] := List.drop_of_length_le (by omega)
  simp [IFStream.read, hl, hd]

theorem readChars_ok (c : List Byte) (p : Nat) (old : CharArray4) (h : p + 4 ≤ c.length) :
    readChars ⟨c, p, false⟩ old 4 = (⟨c, p + 4, false⟩, CharArray4.ofBytes ((c.drop p).take 4)) := by
  simp only [readChars, IFStream.read_ok c p 4 old.bytes h rfl]

theorem readInt_ok (c : List Byte) (p : Nat) (old : Int) (h : p + 4 ≤ c.length) :
    readInt ⟨c, p, false⟩ old 4 = (⟨c, p + 4, false⟩, signedValue ((c.drop p).take 4)) := by
  simp only [readInt, IFStream.read_ok c p 4 _ h (objBytes_length 4 old)]

theorem readShort_ok (c : List Byte) (p : Nat) (old : Int) (h : p + 2 ≤ c.length) :
    readShort ⟨c, p, false⟩ old 2 = (⟨c, p + 2, false⟩, signedValue ((c.drop p).take 2)) := by
  simp only [readShort, IFStream.read_ok c p 2 _ h (objBytes_length 2 old)]

theorem init_header_ok (b : List Byte) (u : WAVHeader) (l : Locals) (h : 44 ≤ b.length) :
    init_header (IFStream.ofFile b) u l = (⟨b, 44, false⟩, headerOfBytes b, 44) := by
  simp only [init_header, IFStream.ofFile, IFStream.seekg, Bool.false_eq_true, if_false]
  rw [readChars_ok b 0 _ (by omega)]
  simp only []
  rw [readInt_ok b (0 + 4) _ (by omega)]
  simp only []
  rw [readChars_ok b (0 + 4 + 4) _ (by omega)]
  simp only []
  rw [readChars_ok b (0 + 4 + 4 + 4) _ (by omega)]
  simp only []
  rw [readInt_ok b (0 + 4 + 4 + 4 + 4) _ (by omega)]
  simp only []
  rw [readShort_ok b (0 + 4 + 4 + 4 + 4 + 4) _ (by omega)]
  simp only []
  rw [readShort_ok b (0 + 4 + 4 + 4 + 4 + 4 + 2) _ (by omega)]
  simp only []
  rw [readInt_ok b (0 + 4 + 4 + 4 + 4 + 4 + 2 + 2) _ (by omega)]
  simp only []
  rw [readInt_ok b (0 + 4 + 4 + 4 + 4 + 4 + 2 + 2 + 4) _ (by omega)]
  simp only []
  rw [readShort_ok b (0 + 4 + 4 + 4 + 4 + 4 + 2 + 2 + 4 + 4) _ (by omega)]
  simp only []
  rw [readShort_ok b (0 + 4 + 4 + 4 + 4 + 4 + 2 + 2 + 4 + 4 + 2) _ (by omega)]
  simp only []
  rw [readChars_ok b (0 + 4 + 4 + 4 + 4 + 4 + 2 + 2 + 4 + 4 + 2 + 2) _ (by omega)]
  simp only []
  rw [readInt_ok b (0 + 4 + 4 + 4 + 4 + 4 + 2 + 2 + 4 + 4 + 2 + 2 + 4) _ (by omega)]
  rfl

theorem signedValue_objBytes_two (v : Int) (h : isShort v) : signedValue (objBytes 2 v) = v := by
  unfold isShort at h
  simp only [objBytes, signedValue, unsignedValue, List.length_cons, List.length_nil]
  norm_num
  split <;> omega

theorem signedValue_objBytes_four (v : Int) (h : isInt v) : signedValue (objBytes 4 v) = v := by
  unfold isInt at h
  simp only [objBytes, signedValue, unsignedValue, List.length_cons, List.length_nil]
  norm_num
  split <;> omega

theorem objBytes_signedValue_two (a b : Byte) : objBytes 2 (signedValue [a, b]) = [a, b] := by
  simp only [objBytes, signedValue, unsignedValue, List.length_cons, List.length_nil]
  norm_num
  have := a.isLt; have := b.isLt
  refine ⟨?_, ?_⟩ <;> apply Fin.ext <;> simp only <;> split <;> omega

theorem objBytes_signedValue_four (a b c d : Byte) :
    objBytes 4 (signedValue [a, b, c, d]) = [a, b, c, d] := by
  simp only [objBytes, signedValue, unsignedValue, List.length_cons, List.length_nil]
  norm_num
  have := a.isLt; have := b.isLt; have := c.isLt; have := d.isLt
  refine ⟨?_, ?_, ?_, ?_⟩ <;> apply Fin.ext <;> simp only <;> split <;> omega

theorem toShort_eq (x : Int) : toShort x = (x + 32768) % 65536 - 32768 := by
  simp only [toShort, objBytes, signedValue, unsignedValue, List.length_cons, List.length_nil]
  norm_num
  split <;> omega

theorem filter_loop_log (f : Int → Int) (l calls : List Int) :
    filter_loop (fun (c : List Int) x => (f x, c ++ [x])) calls l = (l.map f, calls ++ l) := by
  induction l generalizing calls with
  | nil => simp [filter_loop]
  | cons a t ih => simp [filter_loop, ih]

theorem toSizeT_natCast (n : Nat) (h : n < 18446744073709551616) : toSizeT (n : Int) = n := by
  unfold toSizeT
  omega

theorem toInt_of_isInt (x : Int) (h : isInt x) : toInt x = x :=
  signedValue_objBytes_four x h

theorem drop_two_cons (c : List Byte) (p : Nat) (h : p + 2 ≤ c.length) :
    ∃ x y, c.drop p = x :: y :: c.drop (p + 2) := by
  have h1 : p < c.length := by omega
  have h2 : p + 1 < c.length := by omega
  exact ⟨c.get ⟨p, h1⟩, c.get ⟨p + 1, h2⟩, by
    rw [List.drop_eq_getElem_cons h1, List.drop_eq_getElem_cons h2]; rfl⟩

theorem init_data_loop_ok (c : List Byte) (bound : Nat) (hbound : bound < 2147483648) :
    ∀ (m fuel i p : Nat) (sample : Int) (br : Nat) (data : List Int),
    i + 2 * m = bound → p + 2 * m ≤ c.length → m < fuel →
    ∃ br2, init_data_loop bound 2 2 fuel (i : Int) ⟨c, p, false⟩ sample br data =
      some (⟨c, p + 2 * m, false⟩, br2, data ++ samplesOfBytes ((c.drop p).take (2 * m))) := by
  intro m
  induction m with
  | zero =>
    intro fuel i p sample br data hi hp hf
    obtain ⟨fuel, rfl⟩ : ∃ k, fuel = k + 1 := ⟨fuel - 1, by omega⟩
    refine ⟨br, ?_⟩
    rw [init_data_loop, toSizeT_natCast i (by omega), if_neg (by omega)]
    simp [samplesOfBytes]
  | succ m ih =>
    intro fuel i p sample br data hi hp hf
    obtain ⟨fuel, rfl⟩ : ∃ k, fuel = k + 1 := ⟨fuel - 1, by omega⟩
    rw [init_data_loop, toSizeT_natCast i (by omega), if_pos (by omega),
      readShort_ok c p sample (by omega)]
    have e1 : toInt (((i + 2) % 18446744073709551616 : Nat) : Int) = ((i + 2 : Nat) : Int) := by
      rw [Nat.mod_eq_of_lt (by omega)]
      apply toInt_of_isInt
      unfold isInt
      omega
    simp only [e1]
    obtain ⟨br2, h2⟩ := ih fuel (i + 2) (p + 2) (signedValue ((c.drop p).take 2))
      ((br + 2) % 18446744073709551616) (data ++ [signedValue ((c.drop p).take 2)])
      (by omega) (by omega) (by omega)
    refine ⟨br2, ?_⟩
    rw [h2]
    obtain ⟨x, y, hxy⟩ := drop_two_cons c p (by omega)
    have e2 : 2 * (m + 1) = 2 * m + 1 + 1 := by ring
    rw [hxy, e2]
    simp only [List.take_succ_cons, List.take_zero, samplesOfBytes, List.append_assoc,
      List.singleton_append]
    have e3 : p + 2 + 2 * m = p + (2 * m + 1 + 1) := by ring
    rw [e3]

theorem construct_ok (b : List Byte) (u : WAVHeader) (l : Locals) (m : Nat)
    (hbits : (headerOfBytes b).bits_per_sample = 16)
    (hS0 : 0 ≤ (headerOfBytes b).subchunk2_size)
    (hisInt : (headerOfBytes b).subchunk2_size ≤ 2147483647)
    (hm : ((headerOfBytes b).subchunk2_size / 2).toNat = m)
    (hlen : 44 + 2 * m ≤ b.length) :
    Waveform.construct u l b =
      some ⟨headerOfBytes b, samplesOfBytes ((b.drop 44).take (2 * m))⟩ := by
  unfold Waveform.construct
  rw [init_header_ok b u l (by omega)]
  simp only [init_data, hbits, IFStream.seekg, Bool.false_eq_true, if_false]
  have hq : (16 : Int).tdiv 8 = 2 := by decide
  simp only [hq]
  rw [if_pos (by decide)]
  have hs2 : toSizeT 2 = 2 := by decide
  have hS : toSizeT (headerOfBytes b).subchunk2_size / 2 * 2 % 18446744073709551616 = 2 * m := by
    unfold toSizeT
    omega
  have h2 : (2 : Int).toNat = 2 := by decide
  rw [hs2, hS, h2]
  obtain ⟨br2, hloop⟩ := init_data_loop_ok b (2 * m) (by omega) m 4294967296 0 44 l.sample 0 []
    (by omega) hlen (by omega)
  have hz : ((0 : Nat) : Int) = 0 := rfl
  rw [hz] at hloop
  rw [hloop]
  simp

theorem charArray_bytes_length (a : CharArray4) : a.bytes.length = 4 := rfl

theorem header_bytes_length (h : WAVHeader) : h.bytes.length = 44 := by
  simp [WAVHeader.bytes, objBytes_length, charArray_bytes_length]

theorem bytesOfSamples_length (s : List Int) : (bytesOfSamples s).length = 2 * s.length := by
  induction s with
  | nil => rfl
  | cons x t ih => simp [bytesOfSamples, objBytes_length, ih]; ring

theorem OFStream.write_at_end (c bs : List Byte) (p : Nat) (hp : p = c.length) :
    OFStream.write ⟨c, p⟩ bs = ⟨c ++ bs, p + bs.length⟩ := by
  subst hp
  simp [OFStream.write]

theorem write_header_create (h : WAVHeader) :
    write_header OFStream.create h = (⟨h.bytes, 44⟩, SUCCESS) := by
  simp only [write_header, OFStream.create]
  rw [OFStream.write_at_end [] h.chunk_id.bytes 0 rfl,
    OFStream.write_at_end _ (objBytes 4 h.chunk_size) _ (by simp [objBytes_length, charArray_bytes_length]),
    OFStream.write_at_end _ h.format.bytes _ (by simp [objBytes_length, charArray_bytes_length]),
    OFStream.write_at_end _ h.subchunk1_id.bytes _ (by simp [objBytes_length, charArray_bytes_length]),
    OFStream.write_at_end _ (objBytes 4 h.subchunk1_size) _ (by simp [objBytes_length, charArray_bytes_length]),
    OFStream.write_at_end _ (objBytes 2 h.audio_format) _ (by simp [objBytes_length, charArray_bytes_length]),
    OFStream.write_at_end _ (objBytes 2 h.num_channels) _ (by simp [objBytes_length, charArray_bytes_length]),
    OFStream.write_at_end _ (objBytes 4 h.sample_rate) _ (by simp [objBytes_length, charArray_bytes_length]),
    OFStream.write_at_end _ (objBytes 4 h.byte_rate) _ (by simp [objBytes_length, charArray_bytes_length]),
    OFStream.write_at_end _ (objBytes 2 h.block_align) _ (by simp [objBytes_length, charArray_bytes_length]),
    OFStream.write_at_end _ (objBytes 2 h.bits_per_sample) _ (by simp [objBytes_length, charArray_bytes_length]),
    OFStream.write_at_end _ h.subchunk2_id.bytes _ (by simp [objBytes_length, charArray_bytes_length]),
    OFStream.write_at_end _ (objBytes 4 h.subchunk2_size) _ (by simp [objBytes_length, charArray_bytes_length])]
  simp [WAVHeader.bytes, objBytes_length, charArray_bytes_length]

theorem write_data_loop_ok (s : List Int) :
    ∀ (c : List Byte) (p : Nat), p = c.length →
    write_data_loop 2 ⟨c, p⟩ s = some ⟨c ++ bytesOfSamples s, p + 2 * s.length⟩ := by
  induction s with
  | nil => intro c p _; simp [write_data_loop, bytesOfSamples]
  | cons x t ih =>
    intro c p hp
    have h2 : (2 : Int).toNat = 2 := by decide
    have ht : (objBytes 2 x).take 2 = objBytes 2 x :=
      List.take_of_length_le (by rw [objBytes_length])
    rw [write_data_loop, if_pos (by decide), h2, ht, OFStream.write_at_end c _ p hp,
      ih _ _ (by simp [hp, objBytes_length])]
    simp [bytesOfSamples, objBytes_length]
    ring

theorem save_ok (h : WAVHeader) (s : List Int) (hb : h.bits_per_sample = 16) :
    Waveform.save ⟨h, s⟩ = some (h.bytes ++ bytesOfSamples s, SUCCESS) := by
  have hq : (16 : Int).tdiv 8 = 2 := by decide
  simp only [Waveform.save, write_header_create, write_data, OFStream.seekp, hb, hq]
  rw [write_data_loop_ok s h.bytes 44 (header_bytes_length h).symm]
  simp [SUCCESS]

theorem samplesOfBytes_bytesOfSamples (s : List Int) (hs : ∀ x ∈ s, isShort x) :
    samplesOfBytes (bytesOfSamples s) = s := by
  induction s with
  | nil => rfl
  | cons x t ih =>
    have hx := hs x (List.mem_cons_self x t)
    have ht := ih (fun y hy => hs y (List.mem_cons_of_mem x hy))
    have e : bytesOfSamples (x :: t) =
        (objBytes 2 x).get ⟨0, by rw [objBytes_length]; decide⟩ ::
        (objBytes 2 x).get ⟨1, by rw [objBytes_length]; decide⟩ :: bytesOfSamples t := rfl
    rw [e, samplesOfBytes, ht]
    have e2 : [(objBytes 2 x).get ⟨0, by rw [objBytes_length]; decide⟩,
        (objBytes 2 x).get ⟨1, by rw [objBytes_length]; decide⟩] = objBytes 2 x := rfl
    rw [e2, signedValue_objBytes_two x hx]

theorem bytesOfSamples_samplesOfBytes (m : Nat) :
    ∀ d : List Byte, d.length = 2 * m → bytesOfSamples (samplesOfBytes d) = d := by
  induction m with
  | zero =>
    intro d hd
    have : d = [] := List.length_eq_zero.mp (by omega)
    subst this
    rfl
  | succ m ih =>
    intro d hd
    match d, hd with
    | a :: b :: rest, hd =>
      have hr : rest.length = 2 * m := by simp at hd; omega
      rw [samplesOfBytes, bytesOfSamples, ih rest hr, objBytes_signedValue_two]
      rfl

theorem samplesOfBytes_length (m : Nat) :
    ∀ d : List Byte, d.length = 2 * m → (samplesOfBytes d).length = m := by
  induction m with
  | zero =>
    intro d hd
    have : d = [] := List.length_eq_zero.mp (by omega)
    subst this
    rfl
  | succ m ih =>
    intro d hd
    match d, hd with
    | a :: b :: rest, hd =>
      have hr : rest.length = 2 * m := by simp at hd; omega
      rw [samplesOfBytes, List.length_cons, ih rest hr]

theorem objBytes_signedValue_length_two (l : List Byte) (h : l.length = 2) :
    objBytes 2 (signedValue l) = l := by
  match l, h with
  | [a, b], _ => exact objBytes_signedValue_two a b

theorem objBytes_signedValue_length_four (l : List Byte) (h : l.length = 4) :
    objBytes 4 (signedValue l) = l := by
  match l, h with
  | [a, b, c, d], _ => exact objBytes_signedValue_four a b c d

theorem CharArray4.bytes_ofBytes (l : List Byte) (h : l.length = 4) :
    (CharArray4.ofBytes l).bytes = l := by
  match l, h with
  | [a, b, c, d], _ => rfl

theorem slice_length (b : List Byte) (k n : Nat) (h : k + n ≤ b.length) :
    ((b.drop k).take n).length = n := by
  rw [List.length_take, List.length_drop]
  omega

theorem take_append_slice (b : List Byte) (k n t : Nat) (h : k + n = t) :
    b.take k ++ (b.drop k).take n = b.take t := by
  subst h
  exact (List.take_add b k n).symm

theorem headerOfBytes_subchunk2_size (b : List Byte) :
    (headerOfBytes b).subchunk2_size = signedValue ((b.drop 40).take 4) := rfl

theorem bytes_headerOfBytes (b : List Byte) (h : 44 ≤ b.length) :
    (headerOfBytes b).bytes = b.take 44 := by
  simp only [WAVHeader.bytes, headerOfBytes]
  rw [CharArray4.bytes_ofBytes _ (slice_length b 0 4 (by omega)),
    objBytes_signedValue_length_four _ (slice_length b 4 4 (by omega)),
    CharArray4.bytes_ofBytes _ (slice_length b 8 4 (by omega)),
    CharArray4.bytes_ofBytes _ (slice_length b 12 4 (by omega)),
    objBytes_signedValue_length_four _ (slice_length b 16 4 (by omega)),
    objBytes_signedValue_length_two _ (slice_length b 20 2 (by omega)),
    objBytes_signedValue_length_two _ (slice_length b 22 2 (by omega)),
    objBytes_signedValue_length_four _ (slice_length b 24 4 (by omega)),
    objBytes_signedValue_length_four _ (slice_length b 28 4 (by omega)),
    objBytes_signedValue_length_two _ (slice_length b 32 2 (by omega)),
    objBytes_signedValue_length_two _ (slice_length b 34 2 (by omega)),
    CharArray4.bytes_ofBytes _ (slice_length b 36 4 (by omega)),
    objBytes_signedValue_length_four _ (slice_length b 40 4 (by omega))]
  rw [List.drop_zero, take_append_slice b 4 4 8 rfl, take_append_slice b 8 4 12 rfl,
    take_append_slice b 12 4 16 rfl, take_append_slice b 16 4 20 rfl,
    take_append_slice b 20 2 22 rfl, take_append_slice b 22 2 24 rfl,
    take_append_slice b 24 4 28 rfl, take_append_slice b 28 4 32 rfl,
    take_append_slice b 32 2 34 rfl, take_append_slice b 34 2 36 rfl,
    take_append_slice b 36 4 40 rfl, take_append_slice b 40 4 44 rfl]

theorem objBytes_four_cons (v : Int) (hv : isInt v) :
    ∃ a b c d, objBytes 4 v = [a, b, c, d] ∧ signedValue [a, b, c, d] = v := by
  have hl := objBytes_length 4 v
  have hs := signedValue_objBytes_four v hv
  generalize objBytes 4 v = l at hl hs
  match l, hl, hs with
  | [a, b, c, d], _, hs => exact ⟨a, b, c, d, rfl, hs⟩

theorem objBytes_two_cons (v : Int) (hv : isShort v) :
    ∃ a b, objBytes 2 v = [a, b] ∧ signedValue [a, b] = v := by
  have hl := objBytes_length 2 v
  have hs := signedValue_objBytes_two v hv
  generalize objBytes 2 v = l at hl hs
  match l, hl, hs with
  | [a, b], _, hs => exact ⟨a, b, rfl, hs⟩

theorem headerOfBytes_bytes (h : WAVHeader) (r : List Byte) (hw : h.WellTyped) :
    headerOfBytes (h.bytes ++ r) = h := by
  obtain ⟨h1, h2, h3, h4, h5, h6, h7, h8, h9⟩ := hw
  obtain ⟨a1, b1, c1, d1, e1, v1⟩ := objBytes_four_cons _ h1
  obtain ⟨a2, b2, c2, d2, e2, v2⟩ := objBytes_four_cons _ h2
  obtain ⟨a3, b3, e3, v3⟩ := objBytes_two_cons _ h3
  obtain ⟨a4, b4, e4, v4⟩ := objBytes_two_cons _ h4
  obtain ⟨a5, b5, c5, d5, e5, v5⟩ := objBytes_four_cons _ h5
  obtain ⟨a6, b6, c6, d6, e6, v6⟩ := objBytes_four_cons _ h6
  obtain ⟨a7, b7, e7, v7⟩ := objBytes_two_cons _ h7
  obtain ⟨a8, b8, e8, v8⟩ := objBytes_two_cons _ h8
  obtain ⟨a9, b9, c9, d9, e9, v9⟩ := objBytes_four_cons _ h9
  unfold WAVHeader.bytes
  rw [e1, e2, e3, e4, e5, e6, e7, e8, e9]
  have key : headerOfBytes (h.chunk_id.bytes ++ [a1, b1, c1, d1] ++ h.format.bytes ++
      h.subchunk1_id.bytes ++ [a2, b2, c2, d2] ++ [a3, b3] ++ [a4, b4] ++ [a5, b5, c5, d5] ++
      [a6, b6, c6, d6] ++ [a7, b7] ++ [a8, b8] ++ h.subchunk2_id.bytes ++ [a9, b9, c9, d9] ++ r) =
      { chunk_id := h.chunk_id, chunk_size := signedValue [a1, b1, c1, d1],
        format := h.format, subchunk1_id := h.subchunk1_id,
        subchunk1_size := signedValue [a2, b2, c2, d2], audio_format := signedValue [a3, b3],
        num_channels := signedValue [a4, b4], sample_rate := signedValue [a5, b5, c5, d5],
        byte_rate := signedValue [a6, b6, c6, d6], block_align := signedValue [a7, b7],
        bits_per_sample := signedValue [a8, b8], subchunk2_id := h.subchunk2_id,
        subchunk2_size := signedValue [a9, b9, c9, d9] } := by
    simp only [headerOfBytes, CharArray4.bytes, List.cons_append, List.nil_append,
      List.drop_succ_cons, List.drop_zero, List.take_succ_cons, List.take_zero, CharArray4.ofBytes,
      List.getD_cons_zero, List.getD_cons_succ]
  rw [key, v1, v2, v3, v4, v5, v6, v7, v8, v9]

theorem toInt_eq (x : Int) : toInt x = (x + 2147483648) % 4294967296 - 2147483648 := by
  simp only [toInt, objBytes, signedValue, unsignedValue, List.length_cons, List.length_nil]
  norm_num
  split <;> omega

theorem signedValue_isInt (l : List Byte) (h : l.length = 4) : isInt (signedValue l) := by
  match l, h with
  | [a, b, c, d], _ =>
    have := a.isLt; have := b.isLt; have := c.isLt; have := d.isLt
    unfold isInt
    simp only [signedValue, unsignedValue, List.length_cons, List.length_nil]
    norm_num
    split <;> omega

theorem init_data_loop_total (bound : Nat) (hb : bound ≤ 18446744073709551614) :
    ∀ (k fuel : Nat) (i : Int) (file : IFStream) (sample : Int) (br : Nat) (data : List Int),
    isInt i → (-2 - i) % 4294967296 = 2 * (k : Int) → k < fuel →
    ∃ r, init_data_loop bound 2 2 fuel i file sample br data = some r := by
  intro k
  induction k with
  | zero =>
    intro fuel i file sample br data hi hk hf
    obtain ⟨fuel, rfl⟩ : ∃ n, fuel = n + 1 := ⟨fuel - 1, by omega⟩
    unfold isInt at hi
    have hi2 : i = -2 := by omega
    subst hi2
    have ht : toSizeT (-2) = 18446744073709551614 := by decide
    rw [init_data_loop, ht, if_neg (by omega)]
    exact ⟨_, rfl⟩
  | succ k ih =>
    intro fuel i file sample br data hi hk hf
    obtain ⟨fuel, rfl⟩ : ∃ n, fuel = n + 1 := ⟨fuel - 1, by omega⟩
    rw [init_data_loop]
    split
    · apply ih
      · rw [toInt_eq]; unfold isInt; omega
      · rw [toInt_eq]; unfold isInt at hi; unfold toSizeT; omega
      · omega
    · exact ⟨_, rfl⟩

theorem construct_isSome (b : List Byte) (u : WAVHeader) (l : Locals)
    (h16 : (init_header (IFStream.ofFile b) u l).2.1.bits_per_sample = 16) :
    ∃ w, Waveform.construct u l b = some w := by
  unfold Waveform.construct
  simp only [init_data, h16]
  have hq : (16 : Int).tdiv 8 = 2 := by decide
  have hs2 : toSizeT 2 = 2 := by decide
  have h2 : (2 : Int).toNat = 2 := by decide
  simp only [hq, hs2, h2]
  rw [if_pos (by decide)]
  obtain ⟨r, hr⟩ := init_data_loop_total
    (toSizeT (init_header (IFStream.ofFile b) u l).2.1.subchunk2_size / 2 * 2 % 18446744073709551616)
    (by omega) 2147483647 4294967296 0
    ((init_header (IFStream.ofFile b) u l).1.seekg 44) l.sample 0 [] (by decide) (by decide)
    (by decide)
  rw [hr]
  exact ⟨_, rfl⟩

theorem samplesOfBytes_getD (m : Nat) :
    ∀ (d : List Byte) (i : Nat), d.length = 2 * m → i < m →
    (samplesOfBytes d).getD i 0 = signedValue ((d.drop (2 * i)).take 2) := by
  induction m with
  | zero => intro d i _ hi; omega
  | succ m ih =>
    intro d i hd hi
    match d, hd with
    | a :: b :: rest, hd =>
      have hr : rest.length = 2 * m := by simp at hd; omega
      cases i with
      | zero =>
        simp only [samplesOfBytes, List.getD_cons_zero, Nat.mul_zero, List.drop_zero,
          List.take_succ_cons, List.take_zero]
      | succ j =>
        have e : 2 * (j + 1) = 2 * j + 1 + 1 := by ring
        rw [samplesOfBytes, List.getD_cons_succ, ih rest j hr (by omega), e]
        simp only [List.drop_succ_cons]

theorem bytesOfSamples_getD (s : List Int) :
    ∀ i : Nat, i < s.length →
    (bytesOfSamples s).getD (2 * i) 0 = (objBytes 2 (s.getD i 0)).getD 0 0 ∧
    (bytesOfSamples s).getD (2 * i + 1) 0 = (objBytes 2 (s.getD i 0)).getD 1 0 := by
  induction s with
  | nil => intro i hi; simp at hi
  | cons x t ih =>
    intro i hi
    cases i with
    | zero => exact ⟨rfl, rfl⟩
    | succ j =>
      have hj : j < t.length := by simpa using hi
      have e : 2 * (j + 1) = 2 * j + 1 + 1 := by ring
      have := ih j hj
      rw [e, List.getD_cons_succ]
      exact ⟨this.1, this.2⟩

theorem objBytes_two_vals (v : Int) :
    (objBytes 2 v).map (fun x => (x.val : Int)) = [v % 256, v / 256 % 256] := by
  simp only [objBytes, List.map_cons, List.map_nil, List.cons.injEq, and_true]
  omega

theorem objBytes_four_vals (v : Int) :
    (objBytes 4 v).map (fun x => (x.val : Int)) =
      [v % 256, v / 256 % 256, v / 65536 % 256, v / 16777216 % 256] := by
  simp only [objBytes, List.map_cons, List.map_nil, List.cons.injEq, and_true]
  omega

theorem objBytes_two_getD (v : Int) :
    (((objBytes 2 v).getD 0 0).val : Int) = v % 256 ∧
    (((objBytes 2 v).getD 1 0).val : Int) = v / 256 % 256 := by
  simp only [objBytes, List.getD_cons_zero, List.getD_cons_succ]
  omega

end wav

/-! ## Lemmas on the filters -/

namespace demo.filters
open wav

theorem Clip_of_nonneg (T s : Int) (hT : 0 ≤ T ∧ T ≤ 32767) (hs : isShort s) :
    Clip T s = if s > T then T else if s < -T then -T else s := by
  unfold isShort at hs
  simp only [Clip, toShort_eq]
  rcases le_total 0 s with h | h
  · rw [abs_of_nonneg h]
    split_ifs <;> omega
  · rw [abs_of_nonpos h]
    split_ifs <;> omega

theorem truncate_bounds (q : ℚ) (B : Int) (h : |q| ≤ B) : -B ≤ truncate q ∧ truncate q ≤ B := by
  have h2 := abs_le.mp h
  unfold truncate
  split
  · rename_i h0
    constructor
    · have : (0 : Int) ≤ ⌊q⌋ := Int.floor_nonneg.mpr h0
      have hB : (0 : ℚ) ≤ (B : ℚ) := le_trans (abs_nonneg q) h
      have : (0 : Int) ≤ B := by exact_mod_cast hB
      omega
    · have h3 : ((⌊q⌋ : Int) : ℚ) ≤ (B : ℚ) := le_trans (Int.floor_le q) h2.2
      exact_mod_cast h3
  · rename_i h0
    push_neg at h0
    constructor
    · have h3 : ((-B : Int) : ℚ) ≤ ((⌈q⌉ : Int) : ℚ) := by
        push_cast
        exact le_trans h2.1 (Int.le_ceil q)
      exact_mod_cast h3
    · have : ⌈q⌉ ≤ 0 := Int.ceil_le.mpr (by exact_mod_cast h0.le)
      have hB : (0 : ℚ) ≤ (B : ℚ) := le_trans (abs_nonneg q) h
      have : (0 : Int) ≤ B := by exact_mod_cast hB
      omega

/-! ### The rounding of `float` operations -/

theorem roundHalfEven_sub_le (t : ℚ) : |(roundHalfEven t : ℚ) - t| ≤ 1 / 2 := by
  have h0 := Int.fract_nonneg t
  have h1 := Int.fract_lt_one t
  have hf : Int.fract t = t - (⌊t⌋ : ℚ) := rfl
  rw [abs_le]
  unfold roundHalfEven
  split_ifs <;> push_cast <;> constructor <;> linarith

theorem roundHalfEven_eq (t : ℚ) (n : Int) (h : |t - n| < 1 / 2) : roundHalfEven t = n := by
  have h1 := abs_le.mp (roundHalfEven_sub_le t)
  have h2 := abs_lt.mp h
  have h3 : ((roundHalfEven t : Int) : ℚ) < ((n + 1 : Int) : ℚ) := by push_cast; linarith
  have h4 : ((n - 1 : Int) : ℚ) < ((roundHalfEven t : Int) : ℚ) := by push_cast; linarith
  have h5 : roundHalfEven t < n + 1 := by exact_mod_cast h3
  have h6 : n - 1 < roundHalfEven t := by exact_mod_cast h4
  omega

theorem roundHalfEven_nonneg (t : ℚ) (h : 0 ≤ t) : 0 ≤ roundHalfEven t := by
  have hfl : 0 ≤ ⌊t⌋ := Int.floor_nonneg.mpr h
  unfold roundHalfEven
  split_ifs <;> omega

theorem roundHalfEven_nonpos (t : ℚ) (h : t ≤ 0) : roundHalfEven t ≤ 0 := by
  rcases eq_or_lt_of_le h with h0 | h0
  · subst h0
    simp [roundHalfEven]
  · have hfl : ⌊t⌋ < 0 := Int.floor_lt.mpr (by exact_mod_cast h0)
    unfold roundHalfEven
    split_ifs <;> omega

theorem ulp_pos (k : Int) : (0 : ℚ) < 2 ^ k := zpow_pos (by norm_num) k

theorem toFloat_zero : toFloat 0 = 0 := by
  simp [toFloat, roundHalfEven]

theorem toFloat_nonneg (x : ℚ) (h : 0 ≤ x) : 0 ≤ toFloat x := by
  unfold toFloat
  have hu := ulp_pos (floatExponent x - 23)
  have hr := roundHalfEven_nonneg (x / 2 ^ (floatExponent x - 23)) (div_nonneg h hu.le)
  have : (0 : ℚ) ≤ (roundHalfEven (x / 2 ^ (floatExponent x - 23)) : ℚ) := by exact_mod_cast hr
  positivity

theorem toFloat_nonpos (x : ℚ) (h : x ≤ 0) : toFloat x ≤ 0 := by
  unfold toFloat
  have hu := ulp_pos (floatExponent x - 23)
  have hr := roundHalfEven_nonpos (x / 2 ^ (floatExponent x - 23))
    (div_nonpos_of_nonpos_of_nonneg h hu.le)
  have : (roundHalfEven (x / 2 ^ (floatExponent x - 23)) : ℚ) ≤ 0 := by exact_mod_cast hr
  exact mul_nonpos_of_nonpos_of_nonneg this hu.le

theorem toFloat_sub_le_ulp (x : ℚ) :
    |toFloat x - x| ≤ 2 ^ (floatExponent x - 23) / 2 := by
  have hu := ulp_pos (floatExponent x - 23)
  have hr := roundHalfEven_sub_le (x / 2 ^ (floatExponent x - 23))
  have e : toFloat x - x =
      ((roundHalfEven (x / 2 ^ (floatExponent x - 23)) : ℚ) - x / 2 ^ (floatExponent x - 23)) *
        2 ^ (floatExponent x - 23) := by
    unfold toFloat
    field_simp
  rw [e, abs_mul, abs_of_pos hu]
  calc _ ≤ 1 / 2 * 2 ^ (floatExponent x - 23) := mul_le_mul_of_nonneg_right hr hu.le
    _ = _ := by ring

/-- The rounding error of a `float` operation: at most the fraction `2 ^ -24`
of the exact value, or `2 ^ -150` in the subnormal range. -/
theorem toFloat_error (x : ℚ) : |toFloat x - x| ≤ |x| / 2 ^ 24 + 1 / 2 ^ 150 := by
  rcases eq_or_ne x 0 with h0 | h0
  · subst h0
    rw [toFloat_zero]
    norm_num
  have hx : 0 < |x| := abs_pos.mpr h0
  have hb := toFloat_sub_le_ulp x
  have h2 : (2 : ℚ) ≠ 0 := by norm_num
  refine le_trans hb ?_
  unfold floatExponent
  rcases le_total (Int.log 2 |x|) (-126) with hl | hl
  · rw [max_eq_right hl]
    have : (2 : ℚ) ^ ((-126 : Int) - 23) / 2 = 1 / 2 ^ 150 := by norm_num [zpow_neg]
    rw [this]
    have : 0 ≤ |x| / 2 ^ 24 := by positivity
    linarith
  · rw [max_eq_left hl]
    have hle : ((2 : ℕ) : ℚ) ^ Int.log 2 |x| ≤ |x| := Int.zpow_log_le_self (by norm_num) hx
    rw [Nat.cast_ofNat] at hle
    have : (2 : ℚ) ^ (Int.log 2 |x| - 23) / 2 = 2 ^ Int.log 2 |x| / 2 ^ 24 := by
      rw [zpow_sub₀ h2]
      norm_num
      ring
    rw [this]
    have h3 : (2 : ℚ) ^ Int.log 2 |x| / 2 ^ 24 ≤ |x| / 2 ^ 24 :=
      div_le_div_of_nonneg_right hle (by positivity)
    have : (0 : ℚ) ≤ 1 / 2 ^ 150 := by positivity
    linarith

theorem toFloat_error_of_pos (x : ℚ) (h : 0 < x) :
    x - x / 2 ^ 24 - 1 / 2 ^ 150 ≤ toFloat x ∧ toFloat x ≤ x + x / 2 ^ 24 + 1 / 2 ^ 150 := by
  have e := abs_le.mp (toFloat_error x)
  rw [abs_of_pos h] at e
  constructor <;> linarith [e.1, e.2]

theorem toFloat_error_of_neg (x : ℚ) (h : x < 0) :
    x + x / 2 ^ 24 - 1 / 2 ^ 150 ≤ toFloat x ∧ toFloat x ≤ x - x / 2 ^ 24 + 1 / 2 ^ 150 := by
  have e := abs_le.mp (toFloat_error x)
  rw [abs_of_neg h] at e
  constructor <;> linarith [e.1, e.2]

/-- Evaluation of `toFloat`: the value with binary exponent `e` rounds to the
multiple `n * 2 ^ (e - 23)` that is less than half a step away. -/
theorem toFloat_eq_of (x : ℚ) (e n : Int) (he : -126 ≤ e) (h1 : (2 : ℚ) ^ e ≤ |x|)
    (h2 : |x| < (2 : ℚ) ^ (e + 1)) (h3 : |x / 2 ^ (e - 23) - n| < 1 / 2) :
    toFloat x = n * 2 ^ (e - 23) := by
  have hx : 0 < |x| := lt_of_lt_of_le (ulp_pos e) h1
  have hlog : Int.log 2 |x| = e := by
    have a1 : e ≤ Int.log 2 |x| :=
      (Int.zpow_le_iff_le_log (by norm_num) hx).mp (by rw [Nat.cast_ofNat]; exact h1)
    have a2 : Int.log 2 |x| < e + 1 :=
      (Int.lt_zpow_iff_log_lt (by norm_num) hx).mp (by rw [Nat.cast_ofNat]; exact h2)
    omega
  have hfe : floatExponent x = e := by
    unfold floatExponent
    rw [hlog, max_eq_left he]
  unfold toFloat
  rw [hfe, roundHalfEven_eq _ n h3]

/-- Evaluation of `toFloat` at a tie: a value half way between two neighbouring
multiples of the step rounds to the even one. -/
theorem toFloat_eq_of_tie (x : ℚ) (e n : Int) (he : -126 ≤ e) (h1 : (2 : ℚ) ^ e ≤ |x|)
    (h2 : |x| < (2 : ℚ) ^ (e + 1)) (h3 : x / 2 ^ (e - 23) = (n : ℚ) + 1 / 2)
    (hn : n % 2 = 0) : toFloat x = n * 2 ^ (e - 23) := by
  have hx : 0 < |x| := lt_of_lt_of_le (ulp_pos e) h1
  have hlog : Int.log 2 |x| = e := by
    have a1 : e ≤ Int.log 2 |x| :=
      (Int.zpow_le_iff_le_log (by norm_num) hx).mp (by rw [Nat.cast_ofNat]; exact h1)
    have a2 : Int.log 2 |x| < e + 1 :=
      (Int.lt_zpow_iff_log_lt (by norm_num) hx).mp (by rw [Nat.cast_ofNat]; exact h2)
    omega
  have hfe : floatExponent x = e := by
    unfold floatExponent
    rw [hlog, max_eq_left he]
  have hfl : ⌊(n : ℚ) + 1 / 2⌋ = n := by
    rw [Int.floor_eq_iff]
    constructor <;> linarith
  have hfr : Int.fract ((n : ℚ) + 1 / 2) = 1 / 2 := by
    unfold Int.fract
    rw [hfl]
    ring
  have hr : roundHalfEven ((n : ℚ) + 1 / 2) = n := by
    unfold roundHalfEven
    rw [hfr, hfl, if_neg (lt_irrefl _), if_neg (lt_irrefl _), if_pos hn]
  unfold toFloat
  rw [hfe, h3, hr]

theorem truncate_abs_lt (q : ℚ) (B : Int) (h : |q| < B) : -B < truncate q ∧ truncate q < B := by
  have h2 := abs_lt.mp h
  unfold truncate
  split
  · rename_i h0
    have : (0 : Int) ≤ ⌊q⌋ := Int.floor_nonneg.mpr h0
    have hB : (0 : ℚ) < (B : ℚ) := lt_of_le_of_lt (abs_nonneg q) h
    have hB2 : (0 : Int) < B := by exact_mod_cast hB
    exact ⟨by omega, Int.floor_lt.mpr h2.2⟩
  · rename_i h0
    push_neg at h0
    have : ⌈q⌉ ≤ 0 := Int.ceil_le.mpr (by exact_mod_cast h0.le)
    have hB : (0 : ℚ) < (B : ℚ) := lt_of_le_of_lt (abs_nonneg q) h
    have hB2 : (0 : Int) < B := by exact_mod_cast hB
    refine ⟨Int.lt_ceil.mpr (by push_cast; exact h2.1), by omega⟩

/-! ### `Gain` under `float` rounding -/

theorem Gain_rail (f : ℚ) (s : Int) (h : |s| ≥ 32766) : Gain f s = s := by
  unfold Gain
  rw [if_pos]
  left; omega

theorem Gain_zero_sample (f : ℚ) : Gain f 0 = 0 := by
  unfold Gain
  split
  · rfl
  · simp [toFloat_zero, truncate]

theorem Gain_negative_factor (f : ℚ) (s : Int) (hf : f < 0) : Gain f s = s := by
  rcases eq_or_ne s 0 with h0 | h0
  · subst h0
    exact Gain_zero_sample f
  · unfold Gain
    rw [if_pos]
    right
    refine ⟨ne_of_lt hf, ?_⟩
    have h1 : toFloat ((32767 : ℚ) / f) ≤ 0 :=
      toFloat_nonpos _ (div_nonpos_of_nonneg_of_nonpos (by norm_num) hf.le)
    have h2 : (0 : ℚ) < ((|s| : Int) : ℚ) := by exact_mod_cast abs_pos.mpr h0
    exact lt_of_le_of_lt h1 h2

theorem intCast_abs_eq (s : Int) : |(s : ℚ)| = ((|s| : Int) : ℚ) := by
  push_cast; rfl

/-- On the path of `Gain` that multiplies, with a positive factor, the rounded
product stays below 32768 in magnitude. -/
theorem Gain_product_bound (f : ℚ) (s : Int) (hf : 0 < f) (h1 : |s| < 32766)
    (h2 : ¬ toFloat ((32767 : ℚ) / f) < ((|s| : Int) : ℚ)) :
    |toFloat ((s : ℚ) * f)| < 32768 := by
  rcases eq_or_ne s 0 with h0 | h0
  · subst h0
    simp [toFloat_zero]
  have hP1 : (1 : ℚ) ≤ ((|s| : Int) : ℚ) := by
    have : (1 : Int) ≤ |s| := Int.one_le_abs h0
    exact_mod_cast this
  have hP2 : ((|s| : Int) : ℚ) ≤ 32765 := by
    have : |s| ≤ 32765 := by omega
    exact_mod_cast this
  have hy : 0 < (32767 : ℚ) / f := div_pos (by norm_num) hf
  have hyf : (32767 : ℚ) / f * f = 32767 := div_mul_cancel₀ _ (ne_of_gt hf)
  obtain ⟨_, ey⟩ := toFloat_error_of_pos _ hy
  push_neg at h2
  have em := abs_le.mp (toFloat_error ((s : ℚ) * f))
  rw [abs_mul, abs_of_pos hf, intCast_abs_eq] at em
  have hsf := abs_le.mp (le_of_eq (abs_mul (s : ℚ) f))
  rw [abs_of_pos hf, intCast_abs_eq] at hsf
  generalize toFloat ((32767 : ℚ) / f) = q at *
  generalize toFloat ((s : ℚ) * f) = m at *
  generalize (32767 : ℚ) / f = y at *
  generalize ((|s| : Int) : ℚ) = P at *
  -- the quotient is at least one half, so the factor is below 65534
  have hyhalf : 1 / 2 ≤ y := by linarith
  have hfle : f ≤ 65534 := by
    have := mul_le_mul_of_nonneg_right hyhalf hf.le
    linarith
  -- the exact product is barely above 32767
  have hPf : P * f ≤ 32767 + 32767 / 2 ^ 24 + 1 / 2 ^ 150 * 65534 := by
    have h3 : P * f ≤ (y + y / 2 ^ 24 + 1 / 2 ^ 150) * f :=
      mul_le_mul_of_nonneg_right (by linarith) hf.le
    have h4 : (1 : ℚ) / 2 ^ 150 * f ≤ 1 / 2 ^ 150 * 65534 :=
      mul_le_mul_of_nonneg_left hfle (by positivity)
    have h5 : (y + y / 2 ^ 24 + 1 / 2 ^ 150) * f =
        y * f + y * f / 2 ^ 24 + 1 / 2 ^ 150 * f := by ring
    rw [h5, hyf] at h3
    linarith
  have hPf0 : 0 ≤ P * f := by positivity
  rw [abs_lt]
  constructor
  · have := em.1
    norm_num at this hPf ⊢
    linarith [hsf.1, hsf.2]
  · have := em.2
    norm_num at this hPf ⊢
    linarith [hsf.1, hsf.2]

theorem Gain_unguarded (f : ℚ) (s : Int) (h1 : |s| < 32766)
    (h2 : ¬ toFloat ((32767 : ℚ) / f) < ((|s| : Int) : ℚ)) :
    Gain f s = truncate (toFloat ((s : ℚ) * f)) := by
  unfold Gain
  rw [if_neg]
  push_neg
  exact ⟨by omega, fun _ => not_lt.mp h2⟩

/-! ### The factor of `normalize` -/

/-- For a positive peak `p` the amplitude and the factor of `normalize` are
positive, and the factor times `p` is within 0.02 of 32766. -/
theorem normalize_factor_bounds (p : Int) (hpos : 0 < p) (hp : p ≤ 32767) :
    0 < toFloat ((p : ℚ) / (32767 - 1)) ∧
    0 < toFloat (1 / toFloat ((p : ℚ) / (32767 - 1))) ∧
    3276598 / 100 ≤ (p : ℚ) * toFloat (1 / toFloat ((p : ℚ) / (32767 - 1))) ∧
    (p : ℚ) * toFloat (1 / toFloat ((p : ℚ) / (32767 - 1))) ≤ 3276602 / 100 := by
  have hp1 : (1 : ℚ) ≤ (p : ℚ) := by exact_mod_cast hpos
  have hp2 : (p : ℚ) ≤ 32767 := by exact_mod_cast hp
  have hxp : (p : ℚ) = 32766 * ((p : ℚ) / (32767 - 1)) := by
    rw [mul_div_assoc']
    norm_num
  have hx : 0 < (p : ℚ) / (32767 - 1) := div_pos (by linarith) (by norm_num)
  obtain ⟨ea1, ea2⟩ := toFloat_error_of_pos _ hx
  generalize (p : ℚ) / (32767 - 1) = x at *
  generalize toFloat x = a at *
  have ha : 0 < a := by norm_num at ea1 ⊢; linarith
  have ha2 : a < 2 := by norm_num at ea2 ⊢; linarith
  have ha3 : 1 / 32767 ≤ a := by norm_num at ea1 ⊢; linarith
  have hay : a * (1 / a) = 1 := mul_one_div_cancel (ne_of_gt ha)
  have hy : 0 < 1 / a := one_div_pos.mpr ha
  obtain ⟨ef1, ef2⟩ := toFloat_error_of_pos _ hy
  generalize 1 / a = y at *
  generalize toFloat y = f at *
  have hy1 : 1 / 2 < y := by
    have := mul_lt_mul_of_pos_right ha2 hy
    linarith
  have hy2 : y ≤ 32767 := by
    have := mul_le_mul_of_nonneg_right ha3 hy.le
    linarith
  have hf : 0 < f := by norm_num at ef1 ⊢; linarith
  have hf2 : f ≤ 32768 := by norm_num at ef2 ⊢; linarith
  have k1 := mul_le_mul_of_nonneg_right ea1 hf.le
  have k2 := mul_le_mul_of_nonneg_right ea2 hf.le
  have k3 := mul_le_mul_of_nonneg_left ef1 ha.le
  have k4 := mul_le_mul_of_nonneg_left ef2 ha.le
  have e1 : (x - x / 2 ^ 24 - 1 / 2 ^ 150) * f = x * f - x * f / 2 ^ 24 - 1 / 2 ^ 150 * f := by
    ring
  have e2 : (x + x / 2 ^ 24 + 1 / 2 ^ 150) * f = x * f + x * f / 2 ^ 24 + 1 / 2 ^ 150 * f := by
    ring
  have e3 : a * (y - y / 2 ^ 24 - 1 / 2 ^ 150) = a * y - a * y / 2 ^ 24 - 1 / 2 ^ 150 * a := by
    ring
  have e4 : a * (y + y / 2 ^ 24 + 1 / 2 ^ 150) = a * y + a * y / 2 ^ 24 + 1 / 2 ^ 150 * a := by
    ring
  rw [e1] at k1
  rw [e2] at k2
  rw [e3, hay] at k3
  rw [e4, hay] at k4
  have hpf : (p : ℚ) * f = 32766 * (x * f) := by rw [hxp]; ring
  have hef : (1 : ℚ) / 2 ^ 150 * f ≤ 1 / 2 ^ 150 * 32768 :=
    mul_le_mul_of_nonneg_left hf2 (by positivity)
  have hea : (1 : ℚ) / 2 ^ 150 * a ≤ 1 / 2 ^ 150 * 2 :=
    mul_le_mul_of_nonneg_left ha2.le (by positivity)
  have hef0 : (0 : ℚ) ≤ 1 / 2 ^ 150 * f := by positivity
  have hea0 : (0 : ℚ) ≤ 1 / 2 ^ 150 * a := by positivity
  refine ⟨ha, hf, ?_, ?_⟩
  · rw [hpf]
    norm_num at k1 k2 k3 k4 hef hea hef0 hea0 ⊢
    linarith
  · rw [hpf]
    norm_num at k1 k2 k3 k4 hef hea hef0 hea0 ⊢
    linarith

/-- A positive factor `f` that takes the bound `p` to at most 32766.02 never
trips the second guard of `Gain` on a sample of magnitude at most `p`, and the
rounded product stays below 32767 in magnitude. -/
theorem Gain_scaled_sample (f : ℚ) (p x : Int) (hf : 0 < f) (hpos : 0 < p)
    (hT2 : (p : ℚ) * f ≤ 3276602 / 100) (hx : |x| ≤ p) :
    ¬ toFloat ((32767 : ℚ) / f) < ((|x| : Int) : ℚ) ∧
    |toFloat ((x : ℚ) * f)| < 32767 := by
  have hp1 : (1 : ℚ) ≤ (p : ℚ) := by exact_mod_cast hpos
  have hP : ((|x| : Int) : ℚ) ≤ (p : ℚ) := by exact_mod_cast hx
  have hP0 : (0 : ℚ) ≤ ((|x| : Int) : ℚ) := by exact_mod_cast abs_nonneg x
  have hz : 0 < (32767 : ℚ) / f := div_pos (by norm_num) hf
  have hzf : (32767 : ℚ) / f * f = 32767 := div_mul_cancel₀ _ (ne_of_gt hf)
  obtain ⟨eq1, _⟩ := toFloat_error_of_pos _ hz
  have em := abs_le.mp (toFloat_error ((x : ℚ) * f))
  rw [abs_mul, abs_of_pos hf, intCast_abs_eq] at em
  have hsf := abs_le.mp (le_of_eq (abs_mul (x : ℚ) f))
  rw [abs_of_pos hf, intCast_abs_eq] at hsf
  have h1 := mul_le_mul_of_nonneg_left hT2 hz.le
  have h2 : (32767 : ℚ) / f * ((p : ℚ) * f) = 32767 * (p : ℚ) := by
    rw [mul_comm (p : ℚ), ← mul_assoc, hzf]
  rw [h2] at h1
  have hPf : ((|x| : Int) : ℚ) * f ≤ 3276602 / 100 :=
    le_trans (mul_le_mul_of_nonneg_right hP hf.le) hT2
  have hPf0 : 0 ≤ ((|x| : Int) : ℚ) * f := mul_nonneg hP0 hf.le
  generalize toFloat ((x : ℚ) * f) = m at *
  generalize toFloat ((32767 : ℚ) / f) = tz at *
  generalize (32767 : ℚ) / f = z at *
  generalize ((|x| : Int) : ℚ) * f = Pf at *
  generalize (x : ℚ) * f = xf at *
  generalize ((|x| : Int) : ℚ) = P at *
  generalize (p : ℚ) = pq at *
  obtain ⟨em1, em2⟩ := em
  obtain ⟨hsf1, hsf2⟩ := hsf
  refine ⟨?_, ?_⟩
  · rw [not_lt]
    norm_num at h1 eq1 ⊢
    linarith
  · rw [abs_lt]
    constructor
    · norm_num at em1 hPf ⊢
      linarith
    · norm_num at em2 hPf ⊢
      linarith

/-- What `Gain` with the factor of `normalize` does to a sample that is not
above the positive peak `p` in magnitude: the second guard does not hold, a
sample below 32766 in magnitude becomes the truncated rounded product, of
magnitude at most 32766, and any other sample is unchanged. -/
theorem Gain_normalize_sample (p x : Int) (hpos : 0 < p) (hp : p ≤ 32767) (hx : |x| ≤ p) :
    ¬ toFloat ((32767 : ℚ) / toFloat (1 / toFloat ((p : ℚ) / (32767 - 1)))) <
      ((|x| : Int) : ℚ) ∧
    Gain (toFloat (1 / toFloat ((p : ℚ) / (32767 - 1)))) x =
      (if |x| < 32766 then
        truncate (toFloat ((x : ℚ) * toFloat (1 / toFloat ((p : ℚ) / (32767 - 1))))) else x) ∧
    |Gain (toFloat (1 / toFloat ((p : ℚ) / (32767 - 1)))) x| ≤ 32767 ∧
    (|x| < 32766 → |Gain (toFloat (1 / toFloat ((p : ℚ) / (32767 - 1)))) x| ≤ 32766) := by
  obtain ⟨_, hf, hT1, hT2⟩ := normalize_factor_bounds p hpos hp
  obtain ⟨hguard, hm⟩ := Gain_scaled_sample _ p x hf hpos hT2 hx
  have hm' : |toFloat ((x : ℚ) * toFloat (1 / toFloat ((p : ℚ) / (32767 - 1))))| <
      ((32767 : Int) : ℚ) := by
    rw [Int.cast_ofNat]
    exact hm
  have htr := truncate_abs_lt _ 32767 hm'
  by_cases hbig : |x| < 32766
  · have hg := Gain_unguarded _ x hbig hguard
    rw [hg, if_pos hbig]
    refine ⟨hguard, rfl, by rw [abs_le]; omega, fun _ => by rw [abs_le]; omega⟩
  · have hg := Gain_rail (toFloat (1 / toFloat ((p : ℚ) / (32767 - 1)))) x (by omega)
    rw [hg, if_neg hbig]
    exact ⟨hguard, rfl, by omega, fun h => absurd h hbig⟩

/-- The rounded product of a sample with the factor of `normalize` is within
0.03 of the exact rescaling `x * 32766 / p`. -/
theorem normalize_product_near (p x : Int) (hpos : 0 < p) (hp : p ≤ 32767) (hx : |x| ≤ p) :
    |toFloat ((x : ℚ) * toFloat (1 / toFloat ((p : ℚ) / (32767 - 1)))) -
      (x : ℚ) * 32766 / (p : ℚ)| ≤ 3 / 100 := by
  obtain ⟨_, hf, hT1, hT2⟩ := normalize_factor_bounds p hpos hp
  have hp1 : (1 : ℚ) ≤ (p : ℚ) := by exact_mod_cast hpos
  have hP : ((|x| : Int) : ℚ) ≤ (p : ℚ) := by exact_mod_cast hx
  have hP0 : (0 : ℚ) ≤ ((|x| : Int) : ℚ) := by exact_mod_cast abs_nonneg x
  have em := abs_le.mp (toFloat_error ((x : ℚ) * toFloat (1 / toFloat ((p : ℚ) / (32767 - 1)))))
  rw [abs_mul, abs_of_pos hf, intCast_abs_eq] at em
  generalize toFloat (1 / toFloat ((p : ℚ) / (32767 - 1))) = f at *
  have hPf : ((|x| : Int) : ℚ) * f ≤ 3276602 / 100 :=
    le_trans (mul_le_mul_of_nonneg_right hP hf.le) hT2
  have hPf0 : 0 ≤ ((|x| : Int) : ℚ) * f := mul_nonneg hP0 hf.le
  have hpne : (p : ℚ) ≠ 0 := by linarith
  have hd : (x : ℚ) * f - (x : ℚ) * 32766 / (p : ℚ) =
      (x : ℚ) / (p : ℚ) * ((p : ℚ) * f - 32766) := by
    field_simp
    ring
  have hq : |(x : ℚ) / (p : ℚ)| ≤ 1 := by
    rw [abs_div, intCast_abs_eq, abs_of_pos (by linarith : (0 : ℚ) < p)]
    exact (div_le_one (by linarith)).mpr hP
  have hT : |(p : ℚ) * f - 32766| ≤ 2 / 100 := by
    rw [abs_le]
    constructor <;> linarith
  have h1 : |(x : ℚ) * f - (x : ℚ) * 32766 / (p : ℚ)| ≤ 2 / 100 := by
    rw [hd, abs_mul]
    calc _ ≤ 1 * (2 / 100 : ℚ) := mul_le_mul hq hT (abs_nonneg _) (by norm_num)
      _ = _ := by norm_num
  obtain ⟨h1a, h1b⟩ := abs_le.mp h1
  obtain ⟨em1, em2⟩ := em
  generalize toFloat ((x : ℚ) * f) = m at *
  generalize ((|x| : Int) : ℚ) * f = Pf at *
  generalize (x : ℚ) * f = xf at *
  generalize (x : ℚ) * 32766 / (p : ℚ) = ex at *
  rw [abs_le]
  constructor
  · norm_num at em1 hPf ⊢
    linarith
  · norm_num at em2 hPf ⊢
    linarith

/-- The peak itself, when at most 32765, becomes 32765 or 32766. -/
theorem Gain_normalize_peak (p : Int) (hpos : 0 < p) (hp : p ≤ 32765) :
    Gain (toFloat (1 / toFloat ((p : ℚ) / (32767 - 1)))) p = 32765 ∨
    Gain (toFloat (1 / toFloat ((p : ℚ) / (32767 - 1)))) p = 32766 := by
  obtain ⟨_, hf, hT1, hT2⟩ := normalize_factor_bounds p hpos (by omega)
  obtain ⟨_, hg, _, _⟩ := Gain_normalize_sample p p hpos (by omega) (by rw [abs_of_pos hpos])
  rw [abs_of_pos hpos, if_pos (by omega)] at hg
  have hprod : 0 < (p : ℚ) * toFloat (1 / toFloat ((p : ℚ) / (32767 - 1))) := by linarith
  obtain ⟨em1, em2⟩ := toFloat_error_of_pos _ hprod
  rw [hg]
  generalize toFloat ((p : ℚ) * toFloat (1 / toFloat ((p : ℚ) / (32767 - 1)))) = m at *
  generalize (p : ℚ) * toFloat (1 / toFloat ((p : ℚ) / (32767 - 1))) = T at *
  have hm1 : (32765 : ℚ) ≤ m := by norm_num at em1 ⊢; linarith
  have hm2 : m < 32767 := by norm_num at em2 ⊢; linarith
  have h0 : (0 : ℚ) ≤ m := by linarith
  unfold truncate
  rw [if_pos h0]
  have a1 : (32765 : Int) ≤ ⌊m⌋ := Int.le_floor.mpr (by exact_mod_cast hm1)
  have a2 : ⌊m⌋ < (32767 : Int) := Int.floor_lt.mpr (by exact_mod_cast hm2)
  omega

/-- For a negative 16-bit peak `p` the amplitude and the factor of `normalize`
are negative, and so is the rounded quotient of the second guard of `Gain`. -/
theorem normalize_factor_neg (p : Int) (hneg : p < 0) (hp : -32768 ≤ p) :
    toFloat ((p : ℚ) / (32767 - 1)) < 0 ∧
    toFloat (1 / toFloat ((p : ℚ) / (32767 - 1))) < 0 ∧
    toFloat ((32767 : ℚ) / toFloat (1 / toFloat ((p : ℚ) / (32767 - 1)))) < 0 := by
  have hp1 : (p : ℚ) ≤ -1 := by exact_mod_cast Int.le_sub_one_of_lt hneg
  have hp2 : (-32768 : ℚ) ≤ (p : ℚ) := by exact_mod_cast hp
  have hxp : (p : ℚ) = 32766 * ((p : ℚ) / (32767 - 1)) := by
    rw [mul_div_assoc']
    norm_num
  have hx : (p : ℚ) / (32767 - 1) < 0 := div_neg_of_neg_of_pos (by linarith) (by norm_num)
  obtain ⟨ea1, ea2⟩ := toFloat_error_of_neg _ hx
  generalize (p : ℚ) / (32767 - 1) = x at *
  generalize toFloat x = a at *
  have ha : a < 0 := by norm_num at ea2 ⊢; linarith
  have ha2 : -2 < a := by norm_num at ea1 ⊢; linarith
  have ha3 : a ≤ -(1 / 32767) := by norm_num at ea2 ⊢; linarith
  have hay : a * (1 / a) = 1 := mul_one_div_cancel (ne_of_lt ha)
  have hy : 1 / a < 0 := one_div_neg.mpr ha
  obtain ⟨ef1, ef2⟩ := toFloat_error_of_neg _ hy
  generalize 1 / a = y at *
  generalize toFloat y = f at *
  have hy1 : y < -(1 / 2) := by
    have := mul_lt_mul_of_neg_right ha2 hy
    linarith
  have hy2 : -32767 ≤ y := by
    have := mul_le_mul_of_nonpos_right ha3 hy.le
    linarith
  have hf : f < 0 := by norm_num at ef2 ⊢; linarith
  have hf2 : -32768 ≤ f := by norm_num at ef1 ⊢; linarith
  have hz : (32767 : ℚ) / f < 0 := div_neg_of_pos_of_neg (by norm_num) hf
  have hzf : f * ((32767 : ℚ) / f) = 32767 := mul_div_cancel₀ _ (ne_of_lt hf)
  obtain ⟨_, eq2⟩ := toFloat_error_of_neg _ hz
  generalize toFloat ((32767 : ℚ) / f) = tz at *
  generalize (32767 : ℚ) / f = z at *
  have hz1 : z ≤ -(32767 / 32768) := by
    have := mul_le_mul_of_nonpos_right hf2 hz.le
    linarith
  refine ⟨ha, hf, ?_⟩
  norm_num at eq2 ⊢
  linarith

/-! ### Evaluation at concrete values -/

/-- The value of `toFloat` at `x`, from the exponent `e` and the significand
`n` of the result. -/
theorem toFloat_eq_val (x v : ℚ) (e n : Int) (he : -126 ≤ e) (h1 : (2 : ℚ) ^ e ≤ |x|)
    (h2 : |x| < (2 : ℚ) ^ (e + 1)) (h3 : |x / 2 ^ (e - 23) - n| < 1 / 2)
    (hv : (n : ℚ) * 2 ^ (e - 23) = v) : toFloat x = v := by
  rw [toFloat_eq_of x e n he h1 h2 h3, hv]

/-- The value of `Gain` on the path that multiplies, from the values of the two
rounded operations. -/
theorem Gain_eq_val (f q m : ℚ) (s r : Int) (h1 : |s| < 32766)
    (hq : toFloat ((32767 : ℚ) / f) = q) (hg : ¬ q < ((|s| : Int) : ℚ))
    (hm : toFloat ((s : ℚ) * f) = m) (hr : truncate m = r) : Gain f s = r := by
  rw [Gain_unguarded f s h1 (by rw [hq]; exact hg), hm, hr]

/-- The value of `Gain` when the second guard holds. -/
theorem Gain_guarded_val (f q : ℚ) (s : Int) (hf : f ≠ 0)
    (hq : toFloat ((32767 : ℚ) / f) = q) (hg : q < ((|s| : Int) : ℚ)) : Gain f s = s := by
  unfold Gain
  rw [if_pos]
  right
  exact ⟨hf, by rw [hq]; exact hg⟩

end demo.filters

/-! ## The codec: round trip, layout, failure behaviour -/

namespace wav

/-- C1. Round trip: for every header whose fields hold values of their C++
types, with `bits_per_sample = 16`, and every sequence `s` of 16-bit samples
with `subchunk2_size = 2 * len(s)`, `save` writes a byte stream from which the
constructor (`init_header` then `init_data`) returns exactly that header and
exactly `s`, whatever the uninitialised memory held. -/
theorem save_then_construct_roundtrip (h : WAVHeader) (s : List Int) (u : WAVHeader)
    (l : Locals) (hw : h.WellTyped) (hb : h.bits_per_sample = 16)
    (hs : ∀ x ∈ s, isShort x) (hS : h.subchunk2_size = 2 * (s.length : Int)) :
    ∃ b, Waveform.save ⟨h, s⟩ = some (b, SUCCESS) ∧
      Waveform.construct u l b = some ⟨h, s⟩ := by
  refine ⟨h.bytes ++ bytesOfSamples s, save_ok h s hb, ?_⟩
  have hh := headerOfBytes_bytes h (bytesOfSamples s) hw
  have h9 : isInt h.subchunk2_size := hw.2.2.2.2.2.2.2.2
  have hc := construct_ok (h.bytes ++ bytesOfSamples s) u l s.length
    (by rw [hh]; exact hb) (by rw [hh, hS]; omega) (by rw [hh]; exact h9.2)
    (by rw [hh, hS]; omega)
    (by rw [List.length_append, header_bytes_length, bytesOfSamples_length])
  rw [hc, hh, List.drop_left' (header_bytes_length h),
    List.take_of_length_le (by rw [bytesOfSamples_length]),
    samplesOfBytes_bytesOfSamples s hs]

/-- Witness of C1 on the generator's mono header with two samples. -/
theorem save_then_construct_roundtrip_witness :
    mono_16bit_two.WellTyped ∧ mono_16bit_two.bits_per_sample = 16 ∧
    ∃ b, Waveform.save ⟨mono_16bit_two, [1, -2]⟩ = some (b, SUCCESS) ∧
      Waveform.construct mono_16bit zeroLocals b = some ⟨mono_16bit_two, [1, -2]⟩ :=
  ⟨by decide, by decide,
    save_then_construct_roundtrip mono_16bit_two [1, -2] mono_16bit zeroLocals
      (by decide) (by decide) (by decide) (by decide)⟩

/-- C2. Load then save is the identity on bytes: a stream of exactly
`44 + S` bytes, `S` the signed little-endian value of bytes 40..43 with
`S ≥ 0` and `S` even, and 16 in bytes 34..35, is reproduced byte for byte by
`save` applied to the constructed `Waveform`; nothing is asked of the other
header bytes (tags, `num_channels`, sizes). -/
theorem construct_then_save_identity (b : List Byte) (u : WAVHeader) (l : Locals)
    (hlen : (b.length : Int) = 44 + signedValue ((b.drop 40).take 4))
    (hS0 : 0 ≤ signedValue ((b.drop 40).take 4))
    (heven : signedValue ((b.drop 40).take 4) % 2 = 0)
    (hbits : signedValue ((b.drop 34).take 2) = 16) :
    ∃ w, Waveform.construct u l b = some w ∧ Waveform.save w = some (b, SUCCESS) := by
  have h44 : 44 ≤ b.length := by omega
  have hI := signedValue_isInt _ (slice_length b 40 4 (by omega))
  have hc := construct_ok b u l (signedValue ((b.drop 40).take 4) / 2).toNat hbits hS0 hI.2 rfl
    (by omega)
  have hd : (b.drop 44).length = 2 * (signedValue ((b.drop 40).take 4) / 2).toNat := by
    rw [List.length_drop]; omega
  rw [List.take_of_length_le (by omega)] at hc
  refine ⟨_, hc, ?_⟩
  rw [save_ok _ _ hbits, bytes_headerOfBytes b h44, bytesOfSamples_samplesOfBytes _ _ hd,
    List.take_append_drop]

/-- Witness of C2 on a 48-byte stereo-tagged stream with foreign tags. -/
theorem construct_then_save_identity_witness :
    ∃ w, Waveform.construct mono_16bit zeroLocals
        [1, 2, 3, 4, 40, 0, 0, 0, 5, 6, 7, 8, 9, 10, 11, 12, 16, 0, 0, 0, 1, 0, 2, 0, 68, 172,
          0, 0, 16, 177, 2, 0, 4, 0, 16, 0, 13, 14, 15, 16, 4, 0, 0, 0, 1, 0, 254, 255] = some w ∧
      Waveform.save w = some
        ([1, 2, 3, 4, 40, 0, 0, 0, 5, 6, 7, 8, 9, 10, 11, 12, 16, 0, 0, 0, 1, 0, 2, 0, 68, 172,
          0, 0, 16, 177, 2, 0, 4, 0, 16, 0, 13, 14, 15, 16, 4, 0, 0, 0, 1, 0, 254, 255],
          SUCCESS) :=
  construct_then_save_identity _ mono_16bit zeroLocals (by decide) (by decide) (by decide)
    (by decide)

/-- C3. Encoded layout: with `bits_per_sample = 16`, `save` writes
`44 + 2 * len(s)` bytes; the first 44 are the thirteen header fields in
declaration order with nothing between them, each integer as its 4 or 2
little-endian two's-complement bytes; bytes `44 + 2i` and `44 + 2i + 1` are the
low and the high byte of sample `i`. -/
theorem save_layout (h : WAVHeader) (s : List Int) (hb : h.bits_per_sample = 16) :
    ∃ b, Waveform.save ⟨h, s⟩ = some (b, SUCCESS) ∧
      b.length = 44 + 2 * s.length ∧
      b.take 44 =
        h.chunk_id.bytes ++ objBytes 4 h.chunk_size ++ h.format.bytes ++ h.subchunk1_id.bytes ++
        objBytes 4 h.subchunk1_size ++ objBytes 2 h.audio_format ++ objBytes 2 h.num_channels ++
        objBytes 4 h.sample_rate ++ objBytes 4 h.byte_rate ++ objBytes 2 h.block_align ++
        objBytes 2 h.bits_per_sample ++ h.subchunk2_id.bytes ++ objBytes 4 h.subchunk2_size ∧
      (∀ v : Int, (objBytes 4 v).map (fun x => (x.val : Int)) =
        [v % 256, v / 256 % 256, v / 65536 % 256, v / 16777216 % 256]) ∧
      (∀ v : Int, (objBytes 2 v).map (fun x => (x.val : Int)) = [v % 256, v / 256 % 256]) ∧
      ∀ i : Nat, i < s.length →
        ((b.getD (44 + 2 * i) 0).val : Int) = s.getD i 0 % 256 ∧
        ((b.getD (44 + 2 * i + 1) 0).val : Int) = s.getD i 0 / 256 % 256 := by
  refine ⟨h.bytes ++ bytesOfSamples s, save_ok h s hb, ?_, ?_, objBytes_four_vals,
    objBytes_two_vals, ?_⟩
  · rw [List.length_append, header_bytes_length, bytesOfSamples_length]
  · rw [List.take_left' (header_bytes_length h)]
    rfl
  · intro i hi
    have hL := header_bytes_length h
    have g := bytesOfSamples_getD s i hi
    have v := objBytes_two_getD (s.getD i 0)
    rw [List.getD_append_right _ _ _ _ (by omega), List.getD_append_right _ _ _ _ (by omega), hL]
    have e1 : 44 + 2 * i - 44 = 2 * i := by omega
    have e2 : 44 + 2 * i + 1 - 44 = 2 * i + 1 := by omega
    rw [e1, e2, g.1, g.2]
    exact v

/-- Witness of C3 on the generator's mono header with two samples. -/
theorem save_layout_witness :
    ∃ b, Waveform.save ⟨mono_16bit_two, [1, -2]⟩ = some (b, SUCCESS) ∧
      b.length = 44 + 2 * ([1, -2] : List Int).length ∧
      b.take 44 =
        mono_16bit_two.chunk_id.bytes ++ objBytes 4 mono_16bit_two.chunk_size ++
        mono_16bit_two.format.bytes ++ mono_16bit_two.subchunk1_id.bytes ++
        objBytes 4 mono_16bit_two.subchunk1_size ++ objBytes 2 mono_16bit_two.audio_format ++
        objBytes 2 mono_16bit_two.num_channels ++ objBytes 4 mono_16bit_two.sample_rate ++
        objBytes 4 mono_16bit_two.byte_rate ++ objBytes 2 mono_16bit_two.block_align ++
        objBytes 2 mono_16bit_two.bits_per_sample ++ mono_16bit_two.subchunk2_id.bytes ++
        objBytes 4 mono_16bit_two.subchunk2_size ∧
      (∀ v : Int, (objBytes 4 v).map (fun x => (x.val : Int)) =
        [v % 256, v / 256 % 256, v / 65536 % 256, v / 16777216 % 256]) ∧
      (∀ v : Int, (objBytes 2 v).map (fun x => (x.val : Int)) = [v % 256, v / 256 % 256]) ∧
      ∀ i : Nat, i < ([1, -2] : List Int).length →
        ((b.getD (44 + 2 * i) 0).val : Int) = ([1, -2] : List Int).getD i 0 % 256 ∧
        ((b.getD (44 + 2 * i + 1) 0).val : Int) = ([1, -2] : List Int).getD i 0 / 256 % 256 :=
  save_layout mono_16bit_two [1, -2] (by decide)

/-- C4, counterexample. The constructor reports no failure on short input:
on the empty stream (fewer than 44 bytes) it returns a `Waveform` made of the
uninitialised memory, and on a 46-byte stream whose header announces four
data bytes (only two follow offset 44) it returns two samples, the second a
repetition of the first that was never read from the stream. -/
theorem construct_short_input_returns :
    ([] : List Byte).length < 44 ∧
    Waveform.construct mono_16bit_two zeroLocals [] =
      some ⟨{ mono_16bit_two with
          chunk_id := zeroLocals.chunk_id, format := zeroLocals.format,
          subchunk1_id := zeroLocals.subchunk1_id, subchunk2_id := zeroLocals.subchunk2_id },
        [zeroLocals.sample, zeroLocals.sample]⟩ ∧
    (mono_16bit_two.bytes ++ [1, 0]).length = 46 ∧
    signedValue (((mono_16bit_two.bytes ++ [1, 0]).drop 40).take 4) = 4 ∧
    Waveform.construct mono_16bit zeroLocals (mono_16bit_two.bytes ++ [1, 0]) =
      some ⟨mono_16bit_two, [1, 1]⟩ := by
  decide

/-- C4, amended. The constructor has no failure path for short input: whatever
the stream, if the header left by `init_header` has `bits_per_sample = 16` a
`Waveform` is returned. When the stream has 16 in bytes 34..35, `S ≥ 0` in
bytes 40..43 and at least `S` bytes after offset 44, the returned header is
the one held by the first 44 bytes and the samples are exactly the `S / 2`
byte pairs from offset 44 on, in order. -/
theorem construct_returns_and_reads_stream (b : List Byte) (u : WAVHeader) (l : Locals) :
    ((init_header (IFStream.ofFile b) u l).2.1.bits_per_sample = 16 →
      ∃ w, Waveform.construct u l b = some w) ∧
    (signedValue ((b.drop 34).take 2) = 16 → 0 ≤ signedValue ((b.drop 40).take 4) →
      44 + signedValue ((b.drop 40).take 4) ≤ (b.length : Int) →
      ∃ w, Waveform.construct u l b = some w ∧ w._header = headerOfBytes b ∧
        (w._data.length : Int) = signedValue ((b.drop 40).take 4) / 2 ∧
        ∀ i : Nat, (i : Int) < signedValue ((b.drop 40).take 4) / 2 →
          w._data.getD i 0 = signedValue ((b.drop (44 + 2 * i)).take 2)) := by
  refine ⟨construct_isSome b u l, ?_⟩
  intro hbits hS0 hlen
  have hI := signedValue_isInt _ (slice_length b 40 4 (by omega))
  have hc := construct_ok b u l (signedValue ((b.drop 40).take 4) / 2).toNat hbits hS0 hI.2 rfl
    (by omega)
  have hd : ((b.drop 44).take (2 * (signedValue ((b.drop 40).take 4) / 2).toNat)).length =
      2 * (signedValue ((b.drop 40).take 4) / 2).toNat := slice_length b 44 _ (by omega)
  refine ⟨_, hc, rfl, ?_, ?_⟩
  · simp only []
    rw [samplesOfBytes_length _ _ hd]
    omega
  · intro i hi
    simp only []
    rw [samplesOfBytes_getD _ _ i hd (by omega), List.drop_take, List.drop_drop,
      List.take_take, min_eq_left (by omega)]

/-- Witness of C4 (amended) on a complete 48-byte stream. -/
theorem construct_returns_and_reads_stream_witness :
    (∃ w, Waveform.construct mono_16bit zeroLocals (mono_16bit_two.bytes ++ [1, 0, 254, 255]) =
      some w) ∧
    ∃ w, Waveform.construct mono_16bit zeroLocals (mono_16bit_two.bytes ++ [1, 0, 254, 255]) =
        some w ∧
      w._header = headerOfBytes (mono_16bit_two.bytes ++ [1, 0, 254, 255]) ∧
      (w._data.length : Int) =
        signedValue (((mono_16bit_two.bytes ++ [1, 0, 254, 255]).drop 40).take 4) / 2 ∧
      ∀ i : Nat,
        (i : Int) < signedValue (((mono_16bit_two.bytes ++ [1, 0, 254, 255]).drop 40).take 4) / 2 →
        w._data.getD i 0 =
          signedValue (((mono_16bit_two.bytes ++ [1, 0, 254, 255]).drop (44 + 2 * i)).take 2) :=
  ⟨(construct_returns_and_reads_stream (mono_16bit_two.bytes ++ [1, 0, 254, 255]) mono_16bit
      zeroLocals).1 (by decide),
    (construct_returns_and_reads_stream (mono_16bit_two.bytes ++ [1, 0, 254, 255]) mono_16bit
      zeroLocals).2 (by decide) (by decide) (by decide)⟩

/-- C5, counterexample. A file with an empty data chunk is loaded, one sample
is appended through `data()`, and `save` writes the stored size 0 where
`2 * len(s)` is 2. -/
theorem save_keeps_stale_size :
    Waveform.construct mono_16bit_two zeroLocals mono_16bit.bytes = some ⟨mono_16bit, []⟩ ∧
    ∃ b, Waveform.save ⟨mono_16bit, [] ++ [1]⟩ = some (b, SUCCESS) ∧
      signedValue ((b.drop 40).take 4) = 0 ∧
      signedValue ((b.drop 40).take 4) ≠ 2 * (([] ++ [1] : List Int).length : Int) := by
  refine ⟨by decide, mono_16bit.bytes ++ [1, 0], by decide, by decide, by decide⟩

/-- C5, amended. `save` writes the stored `subchunk2_size` as it stands: the
field in bytes 40..43 of the file is the header's value, so it is
`2 * len(s)` exactly when the stored field already is. -/
theorem save_writes_stored_size (h : WAVHeader) (s : List Int) (hw : h.WellTyped)
    (hb : h.bits_per_sample = 16) :
    ∃ b, Waveform.save ⟨h, s⟩ = some (b, SUCCESS) ∧
      signedValue ((b.drop 40).take 4) = h.subchunk2_size ∧
      (signedValue ((b.drop 40).take 4) = 2 * (s.length : Int) ↔
        h.subchunk2_size = 2 * (s.length : Int)) := by
  have hh := headerOfBytes_bytes h (bytesOfSamples s) hw
  have e : signedValue (((h.bytes ++ bytesOfSamples s).drop 40).take 4) = h.subchunk2_size := by
    rw [← headerOfBytes_subchunk2_size, hh]
  exact ⟨h.bytes ++ bytesOfSamples s, save_ok h s hb, e, by rw [e]⟩

/-- Witness of C5 (amended) on a header whose stored size is stale. -/
theorem save_writes_stored_size_witness :
    ∃ b, Waveform.save ⟨mono_16bit, [1]⟩ = some (b, SUCCESS) ∧
      signedValue ((b.drop 40).take 4) = mono_16bit.subchunk2_size ∧
      (signedValue ((b.drop 40).take 4) = 2 * (([1] : List Int).length : Int) ↔
        mono_16bit.subchunk2_size = 2 * (([1] : List Int).length : Int)) :=
  save_writes_stored_size mono_16bit [1] (by decide) (by decide)

/-- C6. `filter` is an in-place map that touches nothing else: the header is
unchanged, the samples become `f(s0), ..., f(s(n-1))` in the same order and
number, and the calls the functor receives are the original samples, each
once and in order (the functor state records them). -/
theorem filter_maps_samples_only (w : Waveform) (f : Int → Int) :
    (w.filter (fun (calls : List Int) x => (f x, calls ++ [x])) []).1._header = w._header ∧
    (w.filter (fun (calls : List Int) x => (f x, calls ++ [x])) []).1._data = w._data.map f ∧
    (w.filter (fun (calls : List Int) x => (f x, calls ++ [x])) []).1._data.length =
      w._data.length ∧
    (w.filter (fun (calls : List Int) x => (f x, calls ++ [x])) []).2 = w._data := by
  simp [Waveform.filter, filter_loop_log]

end wav

/-! ## The filters `Clip` and `Gain` -/

namespace demo.filters
open wav

/-- C7. `Clip` is a symmetric clamp: for a threshold `0 ≤ T ≤ 32767` and a
16-bit sample `s`, the result is `s` when `|s| ≤ T`, `T` when `s > T` and `-T`
when `s < -T`, so its magnitude is at most `T`; `Clip(250)` maps
`[100, -200, 300, -400]` to `[100, -200, 250, -250]`. -/
theorem Clip_symmetric_clamp (T s : Int) (hT : 0 ≤ T ∧ T ≤ 32767) (hs : isShort s) :
    (|s| ≤ T → Clip T s = s) ∧ (s > T → Clip T s = T) ∧ (s < -T → Clip T s = -T) ∧
    |Clip T s| ≤ T ∧
    [100, -200, 300, -400].map (Clip 250) = [100, -200, 250, -250] := by
  rw [Clip_of_nonneg T s hT hs]
  refine ⟨?_, ?_, ?_, ?_, by decide⟩
  · intro h
    have h2 := abs_le.mp h
    split_ifs <;> omega
  · intro h
    rw [if_pos h]
  · intro h
    split_ifs <;> omega
  · rw [abs_le]
    split_ifs <;> omega

/-- Witness of C7 at threshold 250 and sample -400. -/
theorem Clip_symmetric_clamp_witness :
    (|(-400 : Int)| ≤ 250 → Clip 250 (-400) = -400) ∧ ((-400 : Int) > 250 → Clip 250 (-400) = 250) ∧
    ((-400 : Int) < -250 → Clip 250 (-400) = -250) ∧ |Clip 250 (-400)| ≤ 250 ∧
    [100, -200, 300, -400].map (Clip 250) = [100, -200, 250, -250] :=
  Clip_symmetric_clamp 250 (-400) (by decide) (by decide)

/-- C8, counterexample. With the 16-bit threshold -1 the sample 5 is sent to
-1 and -1 is sent to 1: applying `Clip(-1)` twice differs from applying it
once. -/
theorem Clip_negative_threshold_not_idempotent :
    isShort (-1) ∧ isShort 5 ∧ Clip (-1) 5 = -1 ∧ Clip (-1) (Clip (-1) 5) = 1 ∧
    Clip (-1) (Clip (-1) 5) ≠ Clip (-1) 5 := by
  decide

/-- C8, amended. For a 16-bit threshold `T`, `Clip(T)` applied twice equals
`Clip(T)` applied once on every 16-bit sample exactly when `T ≥ 0` or
`T = -32768`; in particular it is idempotent for every threshold `T ≥ 0`. -/
theorem Clip_idempotent_iff (T : Int) (hT : isShort T) :
    (∀ s : Int, isShort s → Clip T (Clip T s) = Clip T s) ↔ (0 ≤ T ∨ T = -32768) := by
  unfold isShort at hT
  constructor
  · intro h
    by_contra hc
    have h0 : Clip T 0 = T := by
      simp only [Clip, toShort_eq, abs_zero]
      split_ifs <;> omega
    have hTT : Clip T T = -T := by
      simp only [Clip, toShort_eq]
      rw [abs_of_nonpos (by omega)]
      split_ifs <;> omega
    have h1 := h 0 (by decide)
    rw [h0, hTT] at h1
    omega
  · rintro (h | h)
    · intro s hs
      rw [Clip_of_nonneg T s ⟨h, hT.2⟩ hs]
      have : isShort (if s > T then T else if s < -T then -T else s) := by
        unfold isShort at hs ⊢
        split_ifs <;> omega
      rw [Clip_of_nonneg T _ ⟨h, hT.2⟩ this]
      split_ifs <;> omega
    · intro s hs
      subst h
      have key : ∀ x : Int, isShort x → Clip (-32768) x = -32768 := by
        intro x hx
        unfold isShort at hx
        simp only [Clip, toShort_eq]
        rcases le_total 0 x with h | h
        · rw [abs_of_nonneg h]
          split_ifs <;> omega
        · rw [abs_of_nonpos h]
          split_ifs <;> omega
      rw [key s hs, key _ (by decide)]

/-- Witness of C8 (amended) at the threshold 250. -/
theorem Clip_idempotent_iff_witness :
    isShort 250 ∧
    ((∀ s : Int, isShort s → Clip 250 (Clip 250 s) = Clip 250 s) ↔
      ((0 : Int) ≤ 250 ∨ (250 : Int) = -32768)) :=
  ⟨by decide, Clip_idempotent_iff 250 (by decide)⟩

/-- C9, counterexample. The exact quotient and the exact product do not decide
the output of `Gain`. The factor 3640.77783203125 is a `float`; for the sample
9 the exact quotient `32767 / f` is below 9, yet the rounded quotient is 9, the
guard does not hold and the result is 32767, not 9. The factor `0.7f` is
11744051 / 16777216; for the sample 10 no guard holds and the exact product
truncates to 6, yet the rounded product is 7 and the result is 7. -/
theorem Gain_exact_guard_fails :
    toFloat (7456313 / 2048) = 7456313 / 2048 ∧
    (32767 : ℚ) / (7456313 / 2048) < ((|(9 : Int)| : Int) : ℚ) ∧
    Gain (7456313 / 2048) 9 = 32767 ∧
    toFloat (7 / 10) = 11744051 / 16777216 ∧
    ¬ (|(10 : Int)| ≥ 32766 ∨
      (32767 : ℚ) / (11744051 / 16777216) < ((|(10 : Int)| : Int) : ℚ)) ∧
    truncate (((10 : Int) : ℚ) * (11744051 / 16777216)) = 6 ∧
    Gain (11744051 / 16777216) 10 = 7 := by
  refine ⟨?_, by norm_num, ?_, ?_, by norm_num, ?_, ?_⟩
  · exact toFloat_eq_val _ _ 11 14912626 (by norm_num) (by norm_num [abs_of_pos])
      (by norm_num [abs_of_pos]) (by norm_num [abs_lt]) (by norm_num)
  · apply Gain_eq_val (7456313 / 2048) 9 32767 9 32767 (by decide)
    · exact toFloat_eq_val _ _ 3 9437184 (by norm_num) (by norm_num [abs_of_pos])
        (by norm_num [abs_of_pos]) (by norm_num [abs_lt]) (by norm_num)
    · norm_num
    · exact toFloat_eq_val _ _ 14 16776704 (by norm_num) (by norm_num [abs_of_pos])
        (by norm_num [abs_of_pos]) (by norm_num [abs_lt]) (by norm_num)
    · norm_num [truncate]
  · exact toFloat_eq_val _ _ (-1) 11744051 (by norm_num) (by norm_num [abs_of_pos])
      (by norm_num [abs_of_pos]) (by norm_num [abs_lt]) (by norm_num)
  · norm_num [truncate, Int.floor_eq_iff]
  · apply Gain_eq_val (11744051 / 16777216) 46810 7 10 7 (by decide)
    · exact toFloat_eq_val _ _ 15 11983360 (by norm_num) (by norm_num [abs_of_pos])
        (by norm_num [abs_of_pos]) (by norm_num [abs_lt]) (by norm_num)
    · norm_num
    · exact toFloat_eq_val _ _ 2 14680064 (by norm_num) (by norm_num [abs_of_pos])
        (by norm_num [abs_of_pos]) (by norm_num [abs_lt]) (by norm_num)
    · norm_num [truncate]

/-- C9, amended. The guard formula of `Gain`, evaluated in `float` arithmetic,
decides the output and rules out wrap-around: for a factor `f > 0` and a
16-bit sample `s`, the sample is returned unchanged when `|s| ≥ 32766` or the
rounded quotient `toFloat (32767 / f)` is below `|s|`; otherwise the result is
the rounded product `toFloat (s * f)` truncated toward zero, with
`|toFloat (s * f)| < 32768`, a value of type `short`. `Gain(2)` leaves 16384
and -16384 unchanged and sends 16383 to 32766. -/
theorem Gain_guard_formula (f : ℚ) (s : Int) (hf : 0 < f) (_hs : isShort s) :
    ((|s| ≥ 32766 ∨ toFloat ((32767 : ℚ) / f) < (|s| : Int)) → Gain f s = s) ∧
    (¬ (|s| ≥ 32766 ∨ toFloat ((32767 : ℚ) / f) < (|s| : Int)) →
      Gain f s = truncate (toFloat ((s : ℚ) * f)) ∧ |toFloat ((s : ℚ) * f)| < 32768 ∧
        isShort (truncate (toFloat ((s : ℚ) * f)))) ∧
    [16384, -16384].map (Gain 2) = [16384, -16384] ∧ Gain 2 16383 = 32766 := by
  have hhalf : toFloat ((32767 : ℚ) / 2) = 32767 / 2 :=
    toFloat_eq_val _ _ 13 16776704 (by norm_num) (by norm_num [abs_of_pos])
      (by norm_num [abs_of_pos]) (by norm_num [abs_lt]) (by norm_num)
  refine ⟨?_, ?_, ?_, ?_⟩
  · intro h
    unfold Gain
    rw [if_pos]
    rcases h with h | h
    · left; omega
    · right; exact ⟨ne_of_gt hf, h⟩
  · intro h
    push_neg at h
    have hlt : |s| < 32766 := by omega
    have hg : ¬ toFloat ((32767 : ℚ) / f) < ((|s| : Int) : ℚ) := not_lt.mpr h.2
    have hb := Gain_product_bound f s hf hlt hg
    have hb' : |toFloat ((s : ℚ) * f)| < ((32768 : Int) : ℚ) := by
      rw [Int.cast_ofNat]
      exact hb
    have ht := truncate_abs_lt _ 32768 hb'
    refine ⟨Gain_unguarded f s hlt hg, hb, ?_⟩
    unfold isShort
    omega
  · rw [List.map_cons, List.map_cons, List.map_nil,
      Gain_guarded_val 2 _ 16384 (by norm_num) hhalf (by norm_num),
      Gain_guarded_val 2 _ (-16384) (by norm_num) hhalf (by norm_num)]
  · apply Gain_eq_val 2 (32767 / 2) 32766 16383 32766 (by decide) hhalf (by norm_num)
    · exact toFloat_eq_val _ _ 14 16776192 (by norm_num) (by norm_num [abs_of_pos])
        (by norm_num [abs_of_pos]) (by norm_num [abs_lt]) (by norm_num)
    · norm_num [truncate]

/-- Witness of C9 (amended) at the factor 2 and the sample 16383. -/
theorem Gain_guard_formula_witness :
    ((|(16383 : Int)| ≥ 32766 ∨ toFloat ((32767 : ℚ) / 2) < (|(16383 : Int)| : Int)) →
      Gain 2 16383 = 16383) ∧
    (¬ (|(16383 : Int)| ≥ 32766 ∨ toFloat ((32767 : ℚ) / 2) < (|(16383 : Int)| : Int)) →
      Gain 2 16383 = truncate (toFloat (((16383 : Int) : ℚ) * 2)) ∧
        |toFloat (((16383 : Int) : ℚ) * 2)| < 32768 ∧
        isShort (truncate (toFloat (((16383 : Int) : ℚ) * 2)))) ∧
    [16384, -16384].map (Gain 2) = [16384, -16384] ∧ Gain 2 16383 = 32766 :=
  Gain_guard_formula 2 16383 (by norm_num) (by decide)

/-- C10. `Gain` leaves rail samples untouched: for every factor `f` and every
16-bit sample with `|s| ≥ 32766`, that is `s` one of 32766, 32767, -32766,
-32767, -32768, the result is `s`. -/
theorem Gain_rail_unchanged (f : ℚ) (s : Int) (hs : isShort s) :
    (|s| ≥ 32766 → Gain f s = s) ∧
    (|s| ≥ 32766 ↔ s ∈ [32766, 32767, -32766, -32767, -32768]) := by
  unfold isShort at hs
  constructor
  · intro h
    unfold Gain
    rw [if_pos]
    left; omega
  · simp only [List.mem_cons, List.mem_nil_iff, or_false]
    rcases le_total 0 s with h | h
    · rw [abs_of_nonneg h]; omega
    · rw [abs_of_nonpos h]; omega

/-- Witness of C10 at the factor 3 and the lowest sample. -/
theorem Gain_rail_unchanged_witness :
    isShort (-32768) ∧ |(-32768 : Int)| ≥ 32766 ∧ Gain 3 (-32768) = -32768 :=
  ⟨by decide, by decide,
    (Gain_rail_unchanged 3 (-32768) (by decide)).1 (by decide)⟩

end demo.filters

/-! ## Lemmas on the amplitude queries and `normalize` -/

namespace wav
open demo.filters

theorem maximum_intensity_loop_spec (l : List Int) :
    ∀ m : Int,
    |m| ≤ |maximum_intensity_loop m l| ∧
    (∀ x ∈ l, |x| ≤ |maximum_intensity_loop m l|) ∧
    ((maximum_intensity_loop m l = m ∧ ∀ x ∈ l, |x| ≤ |m|) ∨
      ∃ i, i < l.length ∧ l.getD i 0 = maximum_intensity_loop m l ∧
        |m| < |maximum_intensity_loop m l| ∧
        ∀ j, j < i → |l.getD j 0| < |maximum_intensity_loop m l|) := by
  induction l with
  | nil =>
    intro m
    simp [maximum_intensity_loop]
  | cons a t ih =>
    intro m
    rw [maximum_intensity_loop]
    obtain ⟨h1, h2, h3⟩ := ih (if |a| > |m| then a else m)
    by_cases hc : |a| > |m|
    · rw [if_pos hc] at h1 h2 h3 ⊢
      refine ⟨by omega, ?_, ?_⟩
      · intro x hx
        rcases List.mem_cons.mp hx with rfl | hx
        · exact h1
        · exact h2 x hx
      · right
        rcases h3 with ⟨e, _⟩ | ⟨i, hi, hg, hlt, hj⟩
        · refine ⟨0, by simp, by simp [e], by rw [e]; exact hc, ?_⟩
          intro j hj
          omega
        · refine ⟨i + 1, by simp; omega, by simpa using hg, by omega, ?_⟩
          intro j hj2
          cases j with
          | zero => simpa using hlt
          | succ k => simpa using hj k (by omega)
    · rw [if_neg hc] at h1 h2 h3 ⊢
      refine ⟨h1, ?_, ?_⟩
      · intro x hx
        rcases List.mem_cons.mp hx with rfl | hx
        · omega
        · exact h2 x hx
      · rcases h3 with ⟨e, hall⟩ | ⟨i, hi, hg, hlt, hj⟩
        · left
          refine ⟨e, ?_⟩
          intro x hx
          rcases List.mem_cons.mp hx with rfl | hx
          · omega
          · exact hall x hx
        · right
          refine ⟨i + 1, by simp; omega, by simpa using hg, hlt, ?_⟩
          intro j hj2
          cases j with
          | zero => simp; omega
          | succ k => simpa using hj k (by omega)

theorem maximum_intensity_cons (h : WAVHeader) (a : Int) (t : List Int) :
    (⟨h, a :: t⟩ : Waveform).maximum_intensity = some (maximum_intensity_loop a t) := by
  simp [Waveform.maximum_intensity, maximum_intensity_loop]

theorem maximum_intensity_peak (w : Waveform) (p : Int) (hp : w.maximum_intensity = some p) :
    p ∈ w._data ∧ (∀ x ∈ w._data, |x| ≤ |p|) ∧
    ∃ i, i < w._data.length ∧ w._data.getD i 0 = p ∧ ∀ j, j < i → |w._data.getD j 0| < |p| := by
  obtain ⟨h, d⟩ := w
  cases d with
  | nil => simp [Waveform.maximum_intensity] at hp
  | cons a t =>
    rw [maximum_intensity_cons] at hp
    have hp2 : maximum_intensity_loop a t = p := Option.some.inj hp
    obtain ⟨h1, h2, h3⟩ := maximum_intensity_loop_spec t a
    rw [hp2] at h1 h2 h3
    have hex : ∃ i, i < (a :: t).length ∧ (a :: t).getD i 0 = p ∧
        ∀ j, j < i → |(a :: t).getD j 0| < |p| := by
      rcases h3 with ⟨e, _⟩ | ⟨i, hi, hg, hlt, hj⟩
      · exact ⟨0, by simp, by simp [e], fun j hj => by omega⟩
      · refine ⟨i + 1, by simp; omega, by simpa using hg, ?_⟩
        intro j hj2
        cases j with
        | zero => simpa using hlt
        | succ k => simpa using hj k (by omega)
    refine ⟨?_, ?_, hex⟩
    · obtain ⟨i, hi, hg, _⟩ := hex
      rw [← hg, List.getD_eq_getElem _ _ hi]
      exact List.getElem_mem _
    · intro x hx
      rcases List.mem_cons.mp hx with rfl | hx
      · exact h1
      · exact h2 x hx

theorem normalize_loop_eq_map (factor : ℚ) (l : List Int) :
    normalize_loop factor l = l.map (Gain factor) := by
  induction l with
  | nil => rfl
  | cons a t ih => simp [normalize_loop, ih]

end wav

namespace demo.filters
open wav

theorem truncate_intCast (n : Int) : truncate (n : ℚ) = n := by
  unfold truncate
  split <;> simp

theorem Pulsify_rail (fl : ℚ → ℚ) (t : ℚ) (r : Int) (hr : r = -32768 ∨ r = 32767) :
    Pulsify fl t r = r := by
  unfold Pulsify
  rcases hr with rfl | rfl <;> split <;> simp

end demo.filters

/-! ## `Pulsify`, the amplitude queries, `normalize`, `num_samples`, convolution -/

namespace demo.filters
open wav

/-- C11. `Pulsify` snaps to the rail of the sample's sign at or above the
threshold: with `a` the amplitude `s / 32767` as the division delivers it
(`fl = id` for exact arithmetic), the result is `s` when `|a| < |t|`, and
otherwise -32768 for `s < 0` and 32767 for `s > 0` and for `s = 0`; it is
always `s` or one of the two rails; a zero sample, whose amplitude is zero, is
snapped exactly when `t = 0`. -/
theorem Pulsify_snaps_to_rail (fl : ℚ → ℚ) (t : ℚ) (s : Int) :
    (|fl ((s : ℚ) / 32767)| < |t| → Pulsify fl t s = s) ∧
    (¬ |fl ((s : ℚ) / 32767)| < |t| →
      (s < 0 → Pulsify fl t s = -32768) ∧ (0 < s → Pulsify fl t s = 32767) ∧
      (s = 0 → Pulsify fl t s = 32767)) ∧
    (Pulsify fl t s = s ∨ Pulsify fl t s = -32768 ∨ Pulsify fl t s = 32767) ∧
    (fl 0 = 0 → ((¬ |fl (((0 : Int) : ℚ) / 32767)| < |t|) ↔ t = 0)) := by
  refine ⟨?_, ?_, ?_, ?_⟩
  · intro h
    unfold Pulsify
    rw [if_pos h]
  · intro h
    unfold Pulsify
    rw [if_neg h]
    refine ⟨fun hs => by rw [if_pos hs], fun hs => by rw [if_neg (by omega)], fun hs => ?_⟩
    rw [if_neg (by omega)]
  · unfold Pulsify
    split
    · left; rfl
    · split
      · right; left; rfl
      · right; right; rfl
  · intro h0
    simp only [Int.cast_zero, zero_div, h0, abs_zero, not_lt, abs_nonpos_iff]

/-- Witness of C11 with exact division, threshold one half, sample 20000. -/
theorem Pulsify_snaps_to_rail_witness :
    (id : ℚ → ℚ) 0 = 0 ∧ ¬ |(id : ℚ → ℚ) (((20000 : Int) : ℚ) / 32767)| < |(1 / 2 : ℚ)| ∧
    Pulsify id (1 / 2) 20000 = 32767 ∧
    ((¬ |(id : ℚ → ℚ) (((0 : Int) : ℚ) / 32767)| < |(0 : ℚ)|) ↔ (0 : ℚ) = 0) :=
  ⟨rfl, by norm_num [abs_of_pos],
    (((Pulsify_snaps_to_rail id (1 / 2) 20000).2.1 (by norm_num [abs_of_pos])).2.1 (by decide)),
    (Pulsify_snaps_to_rail id 0 0).2.2.2 rfl⟩

/-- C18. Transforms do not commute with each other: for the sample 100, the
factor 2 and the threshold 150, `Clip` after `Gain` gives 150 and `Gain` after
`Clip` gives 200. -/
theorem Clip_Gain_do_not_commute :
    Clip 150 (Gain 2 100) = 150 ∧ Gain 2 (Clip 150 100) = 200 ∧
    Clip 150 (Gain 2 100) ≠ Gain 2 (Clip 150 100) := by
  have h1 : Gain 2 100 = 200 := by
    apply Gain_eq_val 2 (32767 / 2) 200 100 200 (by decide)
    · exact toFloat_eq_val _ _ 13 16776704 (by norm_num) (by norm_num [abs_of_pos])
        (by norm_num [abs_of_pos]) (by norm_num [abs_lt]) (by norm_num)
    · norm_num
    · exact toFloat_eq_val _ _ 7 13107200 (by norm_num) (by norm_num [abs_of_pos])
        (by norm_num [abs_of_pos]) (by norm_num [abs_lt]) (by norm_num)
    · norm_num [truncate]
  have h2 : Clip 150 100 = 100 := by decide
  have h3 : Clip 150 200 = 150 := by decide
  rw [h1, h2, h3, h1]
  decide

/-- C20. `Pulsify` is idempotent, whatever the threshold, the sample and the
rounding of the division: a sample that passed through passes through again,
and each rail is a fixed point (it passes through or is snapped to itself). -/
theorem Pulsify_idempotent (fl : ℚ → ℚ) (t : ℚ) (s : Int) :
    Pulsify fl t (Pulsify fl t s) = Pulsify fl t s ∧
    Pulsify fl t (-32768) = -32768 ∧ Pulsify fl t 32767 = 32767 := by
  have hlo := Pulsify_rail fl t (-32768) (Or.inl rfl)
  have hhi := Pulsify_rail fl t 32767 (Or.inr rfl)
  refine ⟨?_, hlo, hhi⟩
  · by_cases h : |fl ((s : ℚ) / 32767)| < |t|
    · have e : Pulsify fl t s = s := by unfold Pulsify; rw [if_pos h]
      rw [e, e]
    · by_cases hs : s < 0
      · have e : Pulsify fl t s = -32768 := by unfold Pulsify; rw [if_neg h, if_pos hs]
        rw [e, hlo]
      · have e : Pulsify fl t s = 32767 := by unfold Pulsify; rw [if_neg h, if_neg hs]
        rw [e, hhi]

end demo.filters

namespace wav
open demo.filters

/-- C12. `maximum_intensity` returns the peak sample: on a non-empty sequence
the result occurs in the sequence, no sample has a larger absolute value
(absolute values are exact integers, so -32768 outranks 32767), and it is the
first sample of that absolute value, returned with its sign. -/
theorem maximum_intensity_first_peak (w : Waveform) (hne : w._data ≠ []) :
    ∃ r, w.maximum_intensity = some r ∧ r ∈ w._data ∧ (∀ x ∈ w._data, |x| ≤ |r|) ∧
      ∃ i, i < w._data.length ∧ w._data.getD i 0 = r ∧
        ∀ j, j < i → |w._data.getD j 0| < |r| := by
  obtain ⟨h, d⟩ := w
  cases d with
  | nil => exact absurd rfl hne
  | cons a t =>
    exact ⟨_, maximum_intensity_cons h a t,
      maximum_intensity_peak ⟨h, a :: t⟩ _ (maximum_intensity_cons h a t)⟩

/-- Witness of C12 on a sequence holding both rails and a repeated peak. -/
theorem maximum_intensity_first_peak_witness :
    (⟨mono_16bit, [32767, -32768, 5, -32768]⟩ : Waveform).maximum_intensity = some (-32768) ∧
    ∃ r, (⟨mono_16bit, [32767, -32768, 5, -32768]⟩ : Waveform).maximum_intensity = some r ∧
      r ∈ [32767, -32768, 5, -32768] ∧ (∀ x ∈ [32767, -32768, 5, -32768], |x| ≤ |r|) ∧
      ∃ i, i < [32767, -32768, 5, -32768].length ∧ [32767, -32768, 5, -32768].getD i 0 = r ∧
        ∀ j, j < i → |[32767, -32768, 5, -32768].getD j 0| < |r| :=
  ⟨by decide,
    maximum_intensity_first_peak ⟨mono_16bit, [32767, -32768, 5, -32768]⟩ (by decide)⟩

/-- C13, the code at the failing input. On an empty sample sequence
`maximum_intensity` has no guard: its first statement reads `_data[0]`, which
is out of bounds, and no error is raised. -/
theorem maximum_intensity_empty_reads_out_of_bounds (h : WAVHeader) :
    (⟨h, []⟩ : Waveform).maximum_intensity = none := rfl


theorem normalize_of_peak (w : Waveform) (p : Int) (hp : w.maximum_intensity = some p)
    (ha : toFloat ((p : ℚ) / (32767 - 1)) ≠ 0) :
    w.maximum_amplitude = some (toFloat ((p : ℚ) / (32767 - 1))) ∧
    w.normalize = some ⟨w._header,
      w._data.map (Gain (toFloat (1 / toFloat ((p : ℚ) / (32767 - 1)))))⟩ := by
  have hamp : w.maximum_amplitude = some (toFloat ((p : ℚ) / (32767 - 1))) := by
    simp [Waveform.maximum_amplitude, hp]
  refine ⟨hamp, ?_⟩
  simp only [Waveform.normalize, hamp]
  rw [if_neg ha]
  simp only [Waveform.normalize_factor, normalize_loop_eq_map]

/-- C14, counterexample. The single sample 100 is its own peak and
`normalize` sends it to 32766, whose amplitude 32766 / 32767 is neither 1 nor
-1; the single sample -32768 keeps its value, of amplitude magnitude above 1. -/
theorem normalize_peak_not_full_scale :
    (⟨mono_16bit, [100]⟩ : Waveform).maximum_intensity = some 100 ∧
    (⟨mono_16bit, [100]⟩ : Waveform).normalize = some ⟨mono_16bit, [32766]⟩ ∧
    ((32766 : Int) : ℚ) / 32767 ≠ 1 ∧ ((32766 : Int) : ℚ) / 32767 ≠ -1 ∧
    (⟨mono_16bit, [-32768]⟩ : Waveform).normalize = some ⟨mono_16bit, [-32768]⟩ ∧
    1 < |((-32768 : Int) : ℚ) / 32767| := by
  have m1 : (⟨mono_16bit, [100]⟩ : Waveform).maximum_intensity = some 100 := by decide
  have m2 : (⟨mono_16bit, [-32768]⟩ : Waveform).maximum_intensity = some (-32768) := by decide
  have ha : toFloat (((100 : Int) : ℚ) / (32767 - 1)) = 409625 / 134217728 :=
    toFloat_eq_val _ _ (-9) 13108000 (by norm_num) (by norm_num [abs_of_pos])
      (by norm_num [abs_of_pos]) (by norm_num [abs_lt]) (by norm_num)
  have hf : toFloat (1 / (409625 / 134217728 : ℚ)) = 10736763 / 32768 :=
    toFloat_eq_val _ _ 8 10736763 (by norm_num) (by norm_num [abs_of_pos])
      (by norm_num [abs_of_pos]) (by norm_num [abs_lt]) (by norm_num)
  have hg : Gain (10736763 / 32768) 100 = 32766 := by
    apply Gain_eq_val (10736763 / 32768) (819225 / 8192) 32766 100 32766 (by decide)
    · exact toFloat_eq_val _ _ 6 13107600 (by norm_num) (by norm_num [abs_of_pos])
        (by norm_num [abs_of_pos]) (by norm_num [abs_lt]) (by norm_num)
    · norm_num
    · exact toFloat_eq_val _ _ 14 16776192 (by norm_num) (by norm_num [abs_of_pos])
        (by norm_num [abs_of_pos]) (by norm_num [abs_lt]) (by norm_num)
    · norm_num [truncate]
  refine ⟨m1, ?_, by norm_num, by norm_num, ?_, by norm_num [abs_of_neg]⟩
  · rw [(normalize_of_peak _ 100 m1 (by rw [ha]; norm_num)).2, ha, hf]
    simp only [List.map_cons, List.map_nil, hg]
  · rw [(normalize_of_peak _ (-32768) m2
      (ne_of_lt (normalize_factor_neg (-32768) (by decide) (by decide)).1)).2]
    simp only [List.map_cons, List.map_nil, Gain_rail _ (-32768) (by decide)]

/-- C14, amended. On a sequence of 16-bit samples whose peak `p` is positive,
`normalize` keeps the header and the length, and the sample at every position
that held the peak becomes 32765 or 32766 when `p ≤ 32765`, of amplitude
below 1, and stays `p` when `p ≥ 32766`. No sample ends with an amplitude of
magnitude above 1. -/
theorem normalize_positive_peak_postcondition (w : Waveform) (p : Int)
    (hs : ∀ x ∈ w._data, isShort x) (hp : w.maximum_intensity = some p) (hpos : 0 < p) :
    ∃ w2, w.normalize = some w2 ∧ w2._header = w._header ∧
      w2._data.length = w._data.length ∧
      (∀ i, i < w._data.length → w._data.getD i 0 = p →
        (p ≤ 32765 → (w2._data.getD i 0 = 32765 ∨ w2._data.getD i 0 = 32766) ∧
          |((w2._data.getD i 0 : Int) : ℚ) / 32767| < 1) ∧
        (32766 ≤ p → w2._data.getD i 0 = p)) ∧
      ∀ r ∈ w2._data, |(r : ℚ) / 32767| ≤ 1 := by
  obtain ⟨hmem, hall, _⟩ := maximum_intensity_peak w p hp
  have hps : isShort p := hs p hmem
  unfold isShort at hps
  obtain ⟨hapos, _, _, _⟩ := normalize_factor_bounds p hpos hps.2
  have hnorm := (normalize_of_peak w p hp (ne_of_gt hapos)).2
  have hle : ∀ x ∈ w._data, |x| ≤ p := fun x hx => by
    have := hall x hx
    rwa [abs_of_pos hpos] at this
  refine ⟨_, hnorm, rfl, by simp, ?_, ?_⟩
  · intro i hi hx
    have hval : (w._data.map (Gain (toFloat (1 / toFloat ((p : ℚ) / (32767 - 1)))))).getD i 0 =
        Gain (toFloat (1 / toFloat ((p : ℚ) / (32767 - 1)))) p := by
      rw [List.getD_eq_getElem _ _ (by simpa using hi), List.getElem_map]
      rw [List.getD_eq_getElem _ _ hi] at hx
      rw [hx]
    simp only [hval]
    constructor
    · intro hsmall
      have hpk := Gain_normalize_peak p hpos hsmall
      refine ⟨hpk, ?_⟩
      rcases hpk with h | h <;> rw [h] <;> norm_num [abs_of_pos]
    · intro hbig
      exact Gain_rail _ p (by rw [abs_of_pos hpos]; omega)
  · intro r hr
    simp only [List.mem_map] at hr
    obtain ⟨x, hx, rfl⟩ := hr
    have hb := (Gain_normalize_sample p x hpos hps.2 (hle x hx)).2.2.1
    have hb2 : |((Gain (toFloat (1 / toFloat ((p : ℚ) / (32767 - 1)))) x : Int) : ℚ)| ≤ 32767 := by
      rw [intCast_abs_eq]
      exact_mod_cast hb
    rw [abs_div, abs_of_pos (by norm_num : (0 : ℚ) < 32767), div_le_one (by norm_num)]
    exact hb2

/-- Witness of C14 (amended) on the samples 100, -50, 100. -/
theorem normalize_positive_peak_postcondition_witness :
    (⟨mono_16bit, [100, -50, 100]⟩ : Waveform).maximum_intensity = some 100 ∧
    ∃ w2, (⟨mono_16bit, [100, -50, 100]⟩ : Waveform).normalize = some w2 ∧
      w2._header = mono_16bit ∧ w2._data.length = [100, -50, 100].length ∧
      (∀ i, i < [100, -50, 100].length → [100, -50, 100].getD i 0 = 100 →
        ((100 : Int) ≤ 32765 → (w2._data.getD i 0 = 32765 ∨ w2._data.getD i 0 = 32766) ∧
          |((w2._data.getD i 0 : Int) : ℚ) / 32767| < 1) ∧
        ((32766 : Int) ≤ 100 → w2._data.getD i 0 = 100)) ∧
      ∀ r ∈ w2._data, |(r : ℚ) / 32767| ≤ 1 :=
  ⟨by decide,
    normalize_positive_peak_postcondition ⟨mono_16bit, [100, -50, 100]⟩ 100 (by decide)
      (by decide) (by decide)⟩

/-- C15, the code at the failing inputs. `normalize` has no guard for a
signal without a peak: on the empty sequence (`n = 0`) the peak is read out of
bounds, and on `n > 0` zero samples the amplitude is zero and
`1 / maximum_amplitude()` divides by zero. -/
theorem normalize_without_peak_undefined (h : WAVHeader) (n : Nat) :
    (⟨h, List.replicate n 0⟩ : Waveform).normalize = none ∧
    ((⟨h, List.replicate (n + 1) 0⟩ : Waveform).maximum_amplitude = some 0) := by
  have hz : ∀ k : Nat, maximum_intensity_loop 0 (List.replicate k 0) = 0 := by
    intro k
    induction k with
    | zero => rfl
    | succ k ih => simp [List.replicate_succ, maximum_intensity_loop, ih]
  have ha : ∀ k : Nat,
      (⟨h, List.replicate (k + 1) 0⟩ : Waveform).maximum_amplitude = some 0 := by
    intro k
    simp [Waveform.maximum_amplitude, List.replicate_succ, maximum_intensity_cons, hz,
      toFloat_zero]
  refine ⟨?_, ha n⟩
  cases n with
  | zero => rfl
  | succ k => simp [Waveform.normalize, ha k]

/-- C16. Convolution length law: for `n` samples and a kernel of `k ≥ 1`
coefficients the convolution holds `n + k - 1` samples, whatever the sample
and coefficient values: two inputs of the same lengths give outputs of the
same length. -/
theorem convolute_length_law (w : Waveform) (kernel : List ℚ) (_hk : 1 ≤ kernel.length) :
    (w.convolute kernel)._data.length = w._data.length + kernel.length - 1 ∧
    (w.convolute kernel)._data = convolute w._data kernel ∧
    ∀ (samples2 : List Int) (kernel2 : List ℚ),
      samples2.length = w._data.length → kernel2.length = kernel.length →
      (convolute samples2 kernel2).length = (convolute w._data kernel).length := by
  refine ⟨by simp [Waveform.convolute, convolute], rfl, ?_⟩
  intro s2 k2 h1 h2
  simp [convolute, h1, h2]

/-- Witness of C16 on four samples and the kernel of the demo. -/
theorem convolute_length_law_witness :
    1 ≤ demo_kernel.length ∧
    ((⟨mono_16bit, [100, -200, 300, -400]⟩ : Waveform).convolute demo_kernel)._data.length =
      4 + 13 - 1 :=
  ⟨by decide,
    (convolute_length_law ⟨mono_16bit, [100, -200, 300, -400]⟩ demo_kernel (by decide)).1⟩

/-- C17, the code at the failing input. A 48-byte stream with
`bits_per_sample = 16` and `subchunk2_size = 4` decodes to two samples, and
`num_samples()` on the decoded `Waveform` is 4 / 16 = 0: the divisor is the
number of bits, not of bytes, per sample. -/
theorem num_samples_divides_by_bits :
    Waveform.construct mono_16bit zeroLocals (mono_16bit_two.bytes ++ [1, 0, 254, 255]) =
      some ⟨mono_16bit_two, [1, -2]⟩ ∧
    (⟨mono_16bit_two, [1, -2]⟩ : Waveform)._data.length = 2 ∧
    (⟨mono_16bit_two, [1, -2]⟩ : Waveform).num_samples = some 0 ∧
    mono_16bit_two.subchunk2_size / 2 = 2 := by
  decide

/-- C19. `normalize` does nothing when the peak is negative: on 16-bit samples
the amplitude is negative, so is the factor, the `float` value of
`1 / amplitude`; the quotient `32767 / factor`, rounded, is below `|s|` for
every sample `s`, `Gain` returns every sample unchanged, and the `Waveform`
after the call is the one before. -/
theorem normalize_negative_peak_unchanged (w : Waveform) (p : Int)
    (hs : ∀ x ∈ w._data, isShort x) (hp : w.maximum_intensity = some p) (hneg : p < 0) :
    ∃ a : ℚ, w.maximum_amplitude = some a ∧ a < 0 ∧ toFloat (1 / a) < 0 ∧
      (∀ s ∈ w._data, toFloat ((32767 : ℚ) / toFloat (1 / a)) < ((|s| : Int) : ℚ)) ∧
      (∀ s ∈ w._data, Gain (toFloat (1 / a)) s = s) ∧
      w.normalize = some w := by
  obtain ⟨hmem, _, _⟩ := maximum_intensity_peak w p hp
  have hps : isShort p := hs p hmem
  unfold isShort at hps
  obtain ⟨ha, hf, hz⟩ := normalize_factor_neg p hneg hps.1
  have hamp : w.maximum_amplitude = some (toFloat ((p : ℚ) / (32767 - 1))) := by
    simp [Waveform.maximum_amplitude, hp]
  have hmap : ∀ l : List Int,
      l.map (Gain (toFloat (1 / toFloat ((p : ℚ) / (32767 - 1))))) = l := by
    intro l
    induction l with
    | nil => rfl
    | cons x t ih => rw [List.map_cons, ih, Gain_negative_factor _ _ hf]
  refine ⟨toFloat ((p : ℚ) / (32767 - 1)), hamp, ha, hf, ?_, ?_, ?_⟩
  · intro s _
    have h2 : (0 : ℚ) ≤ ((|s| : Int) : ℚ) := by exact_mod_cast abs_nonneg s
    exact lt_of_lt_of_le hz h2
  · intro s _
    exact Gain_negative_factor _ _ hf
  · simp only [Waveform.normalize, hamp]
    rw [if_neg (ne_of_lt ha)]
    simp only [Waveform.normalize_factor, normalize_loop_eq_map, hmap]

/-- Witness of C19 on a sequence whose first sample of largest absolute value
is negative. -/
theorem normalize_negative_peak_unchanged_witness :
    (⟨mono_16bit, [5, -100, 100]⟩ : Waveform).maximum_intensity = some (-100) ∧
    ∃ a : ℚ, (⟨mono_16bit, [5, -100, 100]⟩ : Waveform).maximum_amplitude = some a ∧ a < 0 ∧
      toFloat (1 / a) < 0 ∧
      (∀ s ∈ [5, -100, 100], toFloat ((32767 : ℚ) / toFloat (1 / a)) < ((|s| : Int) : ℚ)) ∧
      (∀ s ∈ [5, -100, 100], Gain (toFloat (1 / a)) s = s) ∧
      (⟨mono_16bit, [5, -100, 100]⟩ : Waveform).normalize = some ⟨mono_16bit, [5, -100, 100]⟩ :=
  ⟨by decide,
    normalize_negative_peak_unchanged ⟨mono_16bit, [5, -100, 100]⟩ (-100) (by decide)
      (by decide) (by decide)⟩

end wav

/-! ## What `normalize` computes for a positive peak -/

namespace wav
open demo.filters

/-- C21, counterexample. The single sample 7 is its own positive peak, at most
32765. The factor of `normalize` is the `float` 9586395 / 2048, not 32766 / 7,
and the peak becomes 32765, where the exact value `7 * 32766 / 7` truncates to
32766. The samples 7, 3, -7 become 32765, 14042, -32765. -/
theorem normalize_peak_rounds_below :
    (⟨mono_16bit, [7]⟩ : Waveform).maximum_intensity = some 7 ∧
    toFloat (1 / toFloat (((7 : Int) : ℚ) / (32767 - 1))) = 9586395 / 2048 ∧
    (9586395 / 2048 : ℚ) ≠ 32766 / 7 ∧
    truncate (((7 : Int) : ℚ) * 32766 / ((7 : Int) : ℚ)) = 32766 ∧
    (⟨mono_16bit, [7]⟩ : Waveform).normalize = some ⟨mono_16bit, [32765]⟩ ∧
    (⟨mono_16bit, [7, 3, -7]⟩ : Waveform).normalize =
      some ⟨mono_16bit, [32765, 14042, -32765]⟩ := by
  have m1 : (⟨mono_16bit, [7]⟩ : Waveform).maximum_intensity = some 7 := by decide
  have m2 : (⟨mono_16bit, [7, 3, -7]⟩ : Waveform).maximum_intensity = some 7 := by decide
  have ha : toFloat (((7 : Int) : ℚ) / (32767 - 1)) = 114695 / 536870912 :=
    toFloat_eq_val _ _ (-13) 14680960 (by norm_num) (by norm_num [abs_of_pos])
      (by norm_num [abs_of_pos]) (by norm_num [abs_lt]) (by norm_num)
  have hf : toFloat (1 / (114695 / 536870912 : ℚ)) = 9586395 / 2048 :=
    toFloat_eq_val _ _ 12 9586395 (by norm_num) (by norm_num [abs_of_pos])
      (by norm_num [abs_of_pos]) (by norm_num [abs_lt]) (by norm_num)
  have hz : toFloat ((32767 : ℚ) / (9586395 / 2048)) = 14680513 / 2097152 :=
    toFloat_eq_val _ _ 2 14680513 (by norm_num) (by norm_num [abs_of_pos])
      (by norm_num [abs_of_pos]) (by norm_num [abs_lt]) (by norm_num)
  have hg : Gain (9586395 / 2048) 7 = 32765 := by
    apply Gain_eq_val (9586395 / 2048) (14680513 / 2097152) (16776191 / 512) 7 32765
      (by decide) hz (by norm_num)
    · exact toFloat_eq_val _ _ 14 16776191 (by norm_num) (by norm_num [abs_of_pos])
        (by norm_num [abs_of_pos]) (by norm_num [abs_lt]) (by norm_num)
    · norm_num [truncate, Int.floor_eq_iff]
  have hg3 : Gain (9586395 / 2048) 3 = 14042 := by
    apply Gain_eq_val (9586395 / 2048) (14680513 / 2097152) (1797449 / 128) 3 14042
      (by decide) hz (by norm_num)
    · rw [toFloat_eq_of_tie _ 13 14379592 (by norm_num) (by norm_num [abs_of_pos])
        (by norm_num [abs_of_pos]) (by norm_num) (by decide)]
      norm_num
    · norm_num [truncate, Int.floor_eq_iff]
  have hg7 : Gain (9586395 / 2048) (-7) = -32765 := by
    apply Gain_eq_val (9586395 / 2048) (14680513 / 2097152) (-(16776191 / 512)) (-7) (-32765)
      (by decide) hz (by norm_num)
    · exact toFloat_eq_val _ _ 14 (-16776191) (by norm_num) (by norm_num [abs_of_neg])
        (by norm_num [abs_of_neg]) (by norm_num [abs_lt]) (by norm_num)
    · norm_num [truncate, Int.ceil_eq_iff]
  refine ⟨m1, by rw [ha, hf], by norm_num, by norm_num [truncate], ?_, ?_⟩
  · rw [(normalize_of_peak _ 7 m1 (by rw [ha]; norm_num)).2, ha, hf]
    simp only [List.map_cons, List.map_nil, hg]
  · rw [(normalize_of_peak _ 7 m2 (by rw [ha]; norm_num)).2, ha, hf]
    simp only [List.map_cons, List.map_nil, hg, hg3, hg7]

/-- C21, amended. What `normalize` computes for a positive peak, in `float`
arithmetic: on a non-empty sequence of 16-bit samples whose
`maximum_intensity()` is `p > 0` the amplitude is `a = toFloat (p / 32766)` and
the factor is `F = toFloat (1 / a)`, both positive, with `p * F` within 0.02 of
32766; every sample `s` with `|s| < 32766` becomes the rounded product
`toFloat (s * F)` truncated toward zero, a product within 0.03 of
`s * 32766 / p`, and every other sample is left as it is; for no sample does
the second guard of `Gain`, `toFloat (32767 / F) < |s|`, hold; every result has
`|result| ≤ 32767`; and where the peak stood, a peak `p ≤ 32765` has become
32765 or 32766. -/
theorem normalize_positive_peak_computation (w : Waveform) (p : Int)
    (hs : ∀ x ∈ w._data, isShort x) (hp : w.maximum_intensity = some p) (hpos : 0 < p) :
    w._data ≠ [] ∧
    ∃ a F : ℚ, a = toFloat ((p : ℚ) / (32767 - 1)) ∧ F = toFloat (1 / a) ∧
      w.maximum_amplitude = some a ∧ 0 < a ∧ 0 < F ∧ |(p : ℚ) * F - 32766| ≤ 2 / 100 ∧
      w.normalize = some (w.normalize_factor F) ∧
      w.normalize = some ⟨w._header, w._data.map fun (s : Int) =>
        if |s| < 32766 then truncate (toFloat ((s : ℚ) * F)) else s⟩ ∧
      (∀ s ∈ w._data, ¬ (toFloat ((32767 : ℚ) / F) < ((|s| : Int) : ℚ))) ∧
      (∀ s ∈ w._data, |toFloat ((s : ℚ) * F) - (s : ℚ) * 32766 / (p : ℚ)| ≤ 3 / 100) ∧
      (∀ s ∈ w._data, |Gain F s| ≤ 32767) ∧
      (p ≤ 32765 → ∀ i, i < w._data.length → w._data.getD i 0 = p →
        (w._data.map (Gain F)).getD i 0 = 32765 ∨
        (w._data.map (Gain F)).getD i 0 = 32766) := by
  obtain ⟨hmem, hall, _⟩ := maximum_intensity_peak w p hp
  have hps : isShort p := hs p hmem
  unfold isShort at hps
  obtain ⟨hapos, hFpos, hT1, hT2⟩ := normalize_factor_bounds p hpos hps.2
  obtain ⟨hamp, hnorm⟩ := normalize_of_peak w p hp (ne_of_gt hapos)
  have hle : ∀ x ∈ w._data, |x| ≤ p := fun x hx => by
    have := hall x hx
    rwa [abs_of_pos hpos] at this
  have hg : ∀ x ∈ w._data, _ := fun x hx => Gain_normalize_sample p x hpos hps.2 (hle x hx)
  refine ⟨List.ne_nil_of_mem hmem, _, _, rfl, rfl, hamp, hapos, hFpos, ?_, ?_, ?_,
    fun s hx => (hg s hx).1, fun s hx => normalize_product_near p s hpos hps.2 (hle s hx),
    fun s hx => (hg s hx).2.2.1, ?_⟩
  · rw [abs_le]
    constructor <;> linarith
  · rw [hnorm]
    simp only [Waveform.normalize_factor, normalize_loop_eq_map]
  · rw [hnorm]
    congr 2
    exact List.map_congr_left fun x hx => (hg x hx).2.1
  · intro hsmall i hi hx
    rw [List.getD_eq_getElem _ _ (by simpa using hi), List.getElem_map]
    rw [List.getD_eq_getElem _ _ hi] at hx
    rw [hx]
    exact Gain_normalize_peak p hpos hsmall

/-- Witness of C21 (amended) on the samples 100, -50, 7, which `normalize`
takes to 32766, -16383, 2293. -/
theorem normalize_positive_peak_computation_witness :
    (⟨mono_16bit, [100, -50, 7]⟩ : Waveform).maximum_intensity = some 100 ∧
    (⟨mono_16bit, [100, -50, 7]⟩ : Waveform).normalize =
      some ⟨mono_16bit, [32766, -16383, 2293]⟩ ∧
    ([100, -50, 7] : List Int) ≠ [] ∧
    ∃ a F : ℚ, a = toFloat (((100 : Int) : ℚ) / (32767 - 1)) ∧ F = toFloat (1 / a) ∧
      (⟨mono_16bit, [100, -50, 7]⟩ : Waveform).maximum_amplitude = some a ∧ 0 < a ∧ 0 < F ∧
      |((100 : Int) : ℚ) * F - 32766| ≤ 2 / 100 ∧
      (⟨mono_16bit, [100, -50, 7]⟩ : Waveform).normalize =
        some ((⟨mono_16bit, [100, -50, 7]⟩ : Waveform).normalize_factor F) ∧
      (⟨mono_16bit, [100, -50, 7]⟩ : Waveform).normalize =
        some ⟨mono_16bit, ([100, -50, 7] : List Int).map fun (s : Int) =>
          if |s| < 32766 then truncate (toFloat ((s : ℚ) * F)) else s⟩ ∧
      (∀ s ∈ ([100, -50, 7] : List Int),
        ¬ (toFloat ((32767 : ℚ) / F) < ((|s| : Int) : ℚ))) ∧
      (∀ s ∈ ([100, -50, 7] : List Int),
        |toFloat ((s : ℚ) * F) - (s : ℚ) * 32766 / ((100 : Int) : ℚ)| ≤ 3 / 100) ∧
      (∀ s ∈ ([100, -50, 7] : List Int), |Gain F s| ≤ 32767) ∧
      ((100 : Int) ≤ 32765 → ∀ i, i < ([100, -50, 7] : List Int).length →
        ([100, -50, 7] : List Int).getD i 0 = 100 →
        (([100, -50, 7] : List Int).map (Gain F)).getD i 0 = 32765 ∨
        (([100, -50, 7] : List Int).map (Gain F)).getD i 0 = 32766) := by
  have m1 : (⟨mono_16bit, [100, -50, 7]⟩ : Waveform).maximum_intensity = some 100 := by decide
  have ha : toFloat (((100 : Int) : ℚ) / (32767 - 1)) = 409625 / 134217728 :=
    toFloat_eq_val _ _ (-9) 13108000 (by norm_num) (by norm_num [abs_of_pos])
      (by norm_num [abs_of_pos]) (by norm_num [abs_lt]) (by norm_num)
  have hf : toFloat (1 / (409625 / 134217728 : ℚ)) = 10736763 / 32768 :=
    toFloat_eq_val _ _ 8 10736763 (by norm_num) (by norm_num [abs_of_pos])
      (by norm_num [abs_of_pos]) (by norm_num [abs_lt]) (by norm_num)
  have hz : toFloat ((32767 : ℚ) / (10736763 / 32768)) = 819225 / 8192 :=
    toFloat_eq_val _ _ 6 13107600 (by norm_num) (by norm_num [abs_of_pos])
      (by norm_num [abs_of_pos]) (by norm_num [abs_lt]) (by norm_num)
  have g1 : Gain (10736763 / 32768) 100 = 32766 := by
    apply Gain_eq_val (10736763 / 32768) (819225 / 8192) 32766 100 32766 (by decide) hz
      (by norm_num)
    · exact toFloat_eq_val _ _ 14 16776192 (by norm_num) (by norm_num [abs_of_pos])
        (by norm_num [abs_of_pos]) (by norm_num [abs_lt]) (by norm_num)
    · norm_num [truncate]
  have g2 : Gain (10736763 / 32768) (-50) = -16383 := by
    apply Gain_eq_val (10736763 / 32768) (819225 / 8192) (-16383) (-50) (-16383) (by decide) hz
      (by norm_num)
    · exact toFloat_eq_val _ _ 13 (-16776192) (by norm_num) (by norm_num [abs_of_neg])
        (by norm_num [abs_of_neg]) (by norm_num [abs_lt]) (by norm_num)
    · norm_num [truncate, Int.ceil_eq_iff]
  have g3 : Gain (10736763 / 32768) 7 = 2293 := by
    apply Gain_eq_val (10736763 / 32768) (819225 / 8192) (2348667 / 1024) 7 2293 (by decide) hz
      (by norm_num)
    · exact toFloat_eq_val _ _ 11 9394668 (by norm_num) (by norm_num [abs_of_pos])
        (by norm_num [abs_of_pos]) (by norm_num [abs_lt]) (by norm_num)
    · norm_num [truncate, Int.floor_eq_iff]
  refine ⟨m1, ?_, normalize_positive_peak_computation ⟨mono_16bit, [100, -50, 7]⟩ 100
    (by decide) (by decide) (by decide)⟩
  rw [(normalize_of_peak _ 100 m1 (by rw [ha]; norm_num)).2, ha, hf]
  simp only [List.map_cons, List.map_nil, g1, g2, g3]

end wav
